import Mathlib

/-!
Verification development for the DM852 repository: a shallow embedding of

* `asg1/src/Tree.cpp` — an `int → std::string` binary search tree with
  parent pointers (modelled as positions/paths into a value tree);
* `asg2/src/Tree.hpp` — the templated rewrite `Tree<Key, Value, Comp>`
  with cached `node_count`, `first_node`, `last_node`;
* `final/src/graph/adjacency_list.hpp`, `depth_first_search.hpp`,
  `topological_sort.hpp` — the adjacency-list graph, DFS and topological
  sort.

Pointers are modelled as positions (lists of `Bool`, `false` = left,
`true` = right) into a value tree; a C++ null-pointer dereference is made
explicit as a distinguished result constructor; a loop whose body provably
never changes the loop state is modelled by its exact semantics
(terminate with the value the code returns, or a `diverges` marker).
-/

/-- Binary tree with a key and a value at every internal node.  This is the
value-level picture of the `Node` pointer structures of both tree
assignments (`parent` pointers are recovered from positions). -/
inductive BT (K V : Type) : Type where
  | leaf : BT K V
  | node : BT K V → K → V → BT K V → BT K V
deriving DecidableEq

/-- Number of nodes; mirrors `Tree::size_traversal` of asg1
(left subtree + 1 + right subtree). -/
def BT.size {K V : Type} : BT K V → Nat
  | .leaf => 0
  | .node l _ _ r => l.size + 1 + r.size

/-- In-order list of key/value pairs. -/
def BT.pairs {K V : Type} : BT K V → List (K × V)
  | .leaf => []
  | .node l k v r => l.pairs ++ (k, v) :: r.pairs

/-- In-order list of keys. -/
def BT.keys {K V : Type} (t : BT K V) : List K := t.pairs.map Prod.fst

/-- The binary-search-tree invariant, executably: at every node all keys of
the left subtree are smaller and all keys of the right subtree larger (this
also forces every key to occur at most once). -/
def isBSTB {K V : Type} [LinearOrder K] : BT K V → Bool
  | .leaf => true
  | .node l k _ r =>
      l.keys.all (fun a => decide (a < k)) &&
      r.keys.all (fun a => decide (k < a)) &&
      isBSTB l && isBSTB r

/-- Subtree rooted at a position (`false` = go left, `true` = go right).
`none` when the position walks off the tree. -/
def subtreeAt {K V : Type} : BT K V → List Bool → Option (BT K V)
  | t, [] => some t
  | .leaf, _ :: _ => none
  | .node l _ _ _, false :: p => subtreeAt l p
  | .node _ _ _ r, true :: p => subtreeAt r p

/-- Key/value pair stored at a position, when the position is a node. -/
def pairAt {K V : Type} (t : BT K V) (p : List Bool) : Option (K × V) :=
  match subtreeAt t p with
  | some (.node _ k v _) => some (k, v)
  | _ => none

/-- Replace the value stored at a position (the key is `const` in both C++
versions, so only the value ever changes in place). -/
def setValue {K V : Type} : BT K V → List Bool → V → BT K V
  | .node l k _ r, [], v => .node l k v r
  | .node l k w r, false :: p, v => .node (setValue l p v) k w r
  | .node l k w r, true :: p, v => .node l k w (setValue r p v)
  | .leaf, _, _ => .leaf

/-- Path from a node to its leftmost descendant (keep taking the left child
while one exists); the loop of `begin()`, `front()` and the
right-subtree branch of `next()`. -/
def leftSpine {K V : Type} : BT K V → List Bool
  | .node (.node a b c d) _ _ _ => false :: leftSpine (.node a b c d)
  | _ => []

/-- Path from a node to its rightmost descendant. -/
def rightSpine {K V : Type} : BT K V → List Bool
  | .node _ _ _ (.node a b c d) => true :: rightSpine (.node a b c d)
  | _ => []

/-- Position of the leftmost (minimum-key) node, `none` on the empty tree. -/
def leftmostPosOpt {K V : Type} : BT K V → Option (List Bool)
  | .leaf => none
  | .node l k v r => some (leftSpine (.node l k v r))

/-- Position of the rightmost (maximum-key) node, `none` on the empty tree. -/
def rightmostPosOpt {K V : Type} : BT K V → Option (List Bool)
  | .leaf => none
  | .node l k v r => some (rightSpine (.node l k v r))

/-- All node positions of the tree in in-order. -/
def inorderPos {K V : Type} : BT K V → List (List Bool)
  | .leaf => []
  | .node l _ _ r =>
      (inorderPos l).map (fun p => false :: p) ++
        [] :: (inorderPos r).map (fun p => true :: p)

/-! ## asg1: `Tree.cpp` (`int` keys, `std::string` values) -/

/-- Result of `Tree::find` of asg1.  `nullDeref` marks the two places the
code reads through a null pointer: `current->key` when the walk starts at a
null root, and `current->left`/`current->right` in the childless-node check
right after `current` stepped onto a null child. -/
inductive Asg1Find : Type where
  | found : List Bool → Asg1Find
  | notFound : Asg1Find
  | nullDeref : Asg1Find
deriving DecidableEq

/-- `Tree::find` of asg1 (Tree.cpp lines 172-185), position-returning.
The loop tests `current->key != key`, steps left/right, and then — before
re-testing the loop condition — returns `nullptr` as soon as the node it
stepped onto has no children, even when that node's key is the one searched
for.  Stepping onto a null child dereferences it in that same check. -/
def asg1Find : BT Int String → Int → Asg1Find
  | .leaf, _ => .nullDeref
  | .node l x _ r, k =>
      if x = k then .found []
      else if k < x then
        match l with
        | .leaf => .nullDeref
        | .node .leaf _ _ .leaf => .notFound
        | .node a b c d =>
            match asg1Find (.node a b c d) k with
            | .found p => .found (false :: p)
            | res => res
      else
        match r with
        | .leaf => .nullDeref
        | .node .leaf _ _ .leaf => .notFound
        | .node a b c d =>
            match asg1Find (.node a b c d) k with
            | .found p => .found (true :: p)
            | res => res

/-- The attachment walk of `Tree::insert` of asg1 (lines 142-169): descend
left when `key < current->key`, otherwise right (keys equal to the current
key also go right), and attach a fresh node at the first empty slot.
Returns the new tree and the position of the new node. -/
def asg1InsertWalk : BT Int String → Int → String → BT Int String × List Bool
  | .node l x w r, k, v =>
      if k < x then
        match l with
        | .leaf => (.node (.node .leaf k v .leaf) x w r, [false])
        | .node a b c d =>
            let q := asg1InsertWalk (.node a b c d) k v
            (.node q.1 x w r, false :: q.2)
      else
        match r with
        | .leaf => (.node l x w (.node .leaf k v .leaf), [true])
        | .node a b c d =>
            let q := asg1InsertWalk (.node a b c d) k v
            (.node l x w q.1, true :: q.2)
  | .leaf, k, v => (.node .leaf k v .leaf, [])

/-- `Tree::insert` of asg1 (lines 128-170).  It first calls `find`; on a
found node it overwrites the value and reports `false`; `find`'s null
dereference (which `insert` always triggers on an empty tree, since `find`
reads `current->key` from the null root before insert's own
`root == nullptr` check) is propagated as `none`.  Otherwise the walk
attaches a new node and the call reports `true`. -/
def asg1Insert (t : BT Int String) (k : Int) (v : String) :
    Option (BT Int String × Bool) :=
  match asg1Find t k with
  | .nullDeref => none
  | .found p => some (setValue t p v, false)
  | .notFound =>
      match t with
      | .leaf => some (.node .leaf k v .leaf, true)
      | .node a b c d => some ((asg1InsertWalk (.node a b c d) k v).1, true)

/-- `Tree::front` of asg1 (lines 207-216): throw on an empty tree (modelled
as `none`), otherwise the value of the leftmost node. -/
def asg1Front (t : BT Int String) : Option String :=
  match t with
  | .leaf => none
  | .node l k v r =>
      match pairAt t (leftSpine (.node l k v r)) with
      | some kv => some kv.2
      | none => none

/-- `Tree::back` of asg1 (lines 220-229): throw on an empty tree, otherwise
the value of the rightmost node. -/
def asg1Back (t : BT Int String) : Option String :=
  match t with
  | .leaf => none
  | .node l k v r =>
      match pairAt t (rightSpine (.node l k v r)) with
      | some kv => some kv.2
      | none => none

/-- `Tree::compareTraversal` of asg1 (lines 262-276), the worker of
`operator==`: equal shape and equal key/value at every corresponding node. -/
def compareTraversal : BT Int String → BT Int String → Bool
  | .leaf, .leaf => true
  | .leaf, .node _ _ _ _ => false
  | .node _ _ _ _, .leaf => false
  | .node l1 x1 v1 r1, .node l2 x2 v2 r2 =>
      decide (x1 = x2) && decide (v1 = v2) &&
      compareTraversal l1 l2 && compareTraversal r1 r2

/-- Result of the parent-climbing loops of asg1's `Node::next`/`Node::prev`:
their bodies never change `next` (the `next = next->parent` step is
missing), so each run either returns on the first test or repeats the same
test forever (`diverges`). -/
inductive LoopRes : Type where
  | diverges : LoopRes
  | ret : Option (List Bool) → LoopRes
deriving DecidableEq

/-- `Tree::Node::next` of asg1 (lines 28-48) on the node at position `p`.
With a right child: leftmost descendant of the right child.  Without one:
the climbing loop returns the parent when the node is not its parent's
right child, loops forever when it is, and returns the node itself (not
`nullptr`) when the node is the root. -/
def asg1NextRes (t : BT Int String) (p : List Bool) : LoopRes :=
  match subtreeAt t p with
  | some (.node _ _ _ (.node a b c d)) =>
      .ret (some (p ++ true :: leftSpine (.node a b c d)))
  | some (.node _ _ _ .leaf) =>
      match p.getLast? with
      | none => .ret (some p)
      | some false => .ret (some p.dropLast)
      | some true => .diverges
  | _ => .ret none

/-- `Tree::Node::prev` of asg1 (lines 58-78), the mirror image of
`asg1NextRes`. -/
def asg1PrevRes (t : BT Int String) (p : List Bool) : LoopRes :=
  match subtreeAt t p with
  | some (.node (.node a b c d) _ _ _) =>
      .ret (some (p ++ false :: rightSpine (.node a b c d)))
  | some (.node .leaf _ _ _) =>
      match p.getLast? with
      | none => .ret (some p)
      | some true => .ret (some p.dropLast)
      | some false => .diverges
  | _ => .ret none

/-! ## asg2: `Tree.hpp` (`Tree<Key, Value, Comp>` with the default
`Comp = std::less<Key>`, modelled by a linear order on `K`).  Key equality
in the source is always the double comparison
`!comp(a, b) && !comp(b, a)`, kept literally below. -/

/-- `Tree<K, V>` state of asg2: the node structure plus the cached
`node_count`, `first_node` and `last_node` members (the cached pointers are
modelled as positions). -/
structure Asg2Tree (K V : Type) : Type where
  root : BT K V
  node_count : Nat
  first_node : Option (List Bool)
  last_node : Option (List Bool)
deriving DecidableEq

/-- The freshly constructed tree (`Tree()`), and the state `clear()`
resets to. -/
def asg2Empty (K V : Type) : Asg2Tree K V :=
  { root := .leaf, node_count := 0, first_node := none, last_node := none }

/-- `Tree::findNode` of asg2 (Tree.hpp lines 821-833), position-returning:
walk from the root; keys are equal when `!comp(x, k) && !comp(k, x)`;
go right when `comp(x, k)`, left otherwise. -/
def findNodePos {K V : Type} [LinearOrder K] : BT K V → K → Option (List Bool)
  | .leaf, _ => none
  | .node l x _ r, k =>
      if ¬ x < k ∧ ¬ k < x then some []
      else if x < k then (findNodePos r k).map (fun p => true :: p)
      else (findNodePos l k).map (fun p => false :: p)

/-- The attachment walk of asg2's `insert` (lines 871-895): descend left
when `comp(key, current.key)`, otherwise right, attach at the first empty
slot; returns the new tree and the new node's position. -/
def asg2InsertWalk {K V : Type} [LinearOrder K] :
    BT K V → K → V → BT K V × List Bool
  | .node l x w r, k, v =>
      if k < x then
        match l with
        | .leaf => (.node (.node .leaf k v .leaf) x w r, [false])
        | .node a b c d =>
            let q := asg2InsertWalk (.node a b c d) k v
            (.node q.1 x w r, false :: q.2)
      else
        match r with
        | .leaf => (.node l x w (.node .leaf k v .leaf), [true])
        | .node a b c d =>
            let q := asg2InsertWalk (.node a b c d) k v
            (.node l x w q.1, true :: q.2)
  | .leaf, k, v => (.node .leaf k v .leaf, [])

/-- Key stored at the position a cached pointer designates (used for the
`comp(key, first_node->values->first)` reads of `insert`). -/
def keyAt {K V : Type} (t : BT K V) (p : List Bool) : Option K :=
  (pairAt t p).map Prod.fst

/-- `Tree::insert` of asg2 (lines 852-896).  Existing key: overwrite the
value in place, report `false`.  Empty tree: the new node becomes root,
`first_node` and `last_node`.  Otherwise: attach by the walk, bump
`node_count`, and pull `first_node`/`last_node` onto the new node when its
key compares below/above the cached one.  Returns the new state together
with the returned `(iterator, bool)` pair (the iterator as a position). -/
def asg2Insert {K V : Type} [LinearOrder K] (s : Asg2Tree K V) (k : K) (v : V) :
    Asg2Tree K V × (List Bool × Bool) :=
  match findNodePos s.root k with
  | some p => ({ s with root := setValue s.root p v }, (p, false))
  | none =>
      match s.root with
      | .leaf =>
          ({ root := .node .leaf k v .leaf, node_count := s.node_count + 1,
             first_node := some [], last_node := some [] }, ([], true))
      | .node a b c d =>
          let q := asg2InsertWalk (.node a b c d) k v
          let first' :=
            match s.first_node.bind (keyAt s.root) with
            | some fk => if k < fk then some q.2 else s.first_node
            | none => s.first_node
          let last' :=
            match s.last_node.bind (keyAt s.root) with
            | some lk => if lk < k then some q.2 else s.last_node
            | none => s.last_node
          ({ root := q.1, node_count := s.node_count + 1,
             first_node := first', last_node := last' }, (q.2, true))

/-- `Tree::clear` of asg2 (lines 462-468). -/
def asg2Clear {K V : Type} (_ : Asg2Tree K V) : Asg2Tree K V :=
  { root := .leaf, node_count := 0, first_node := none, last_node := none }

/-- `Tree::find` of asg2 (lines 965-977) read through to the stored value:
the value of the node `findNode` locates, `none` for the end iterator. -/
def asg2FindVal {K V : Type} [LinearOrder K] (s : Asg2Tree K V) (k : K) :
    Option V :=
  (findNodePos s.root k).bind (fun p => (pairAt s.root p).map Prod.snd)

/-- `Tree::front` of asg2 (lines 1023-1026): `assert(first_node)` (modelled
as `none` on failure), then the cached first node's key/value pair. -/
def asg2Front {K V : Type} (s : Asg2Tree K V) : Option (K × V) :=
  s.first_node.bind (pairAt s.root)

/-- `Tree::back` of asg2 (lines 1039-1042). -/
def asg2Back {K V : Type} (s : Asg2Tree K V) : Option (K × V) :=
  s.last_node.bind (pairAt s.root)

/-- The parent-climbing loop of asg2's `Node::next` (lines 144-152), on the
reversed position: drop the trailing right-steps; from a left child return
the parent; from the root return `nullptr`. -/
def upNext : List Bool → Option (List Bool)
  | [] => none
  | false :: rest => some rest.reverse
  | true :: rest => upNext rest

/-- The parent-climbing loop of asg2's `Node::prev` (lines 182-190). -/
def upPrev : List Bool → Option (List Bool)
  | [] => none
  | true :: rest => some rest.reverse
  | false :: rest => upPrev rest

/-- `Tree::Node::next` of asg2 (lines 133-154) on the node at position `p`:
leftmost descendant of the right child when there is one, otherwise climb
while the node is its parent's right child. -/
def asg2NextPos {K V : Type} (t : BT K V) (p : List Bool) : Option (List Bool) :=
  match subtreeAt t p with
  | some (.node _ _ _ (.node a b c d)) => some (p ++ true :: leftSpine (.node a b c d))
  | some (.node _ _ _ .leaf) => upNext p.reverse
  | _ => none

/-- `Tree::Node::prev` of asg2 (lines 171-192), the mirror image. -/
def asg2PrevPos {K V : Type} (t : BT K V) (p : List Bool) : Option (List Bool) :=
  match subtreeAt t p with
  | some (.node (.node a b c d) _ _ _) => some (p ++ false :: rightSpine (.node a b c d))
  | some (.node .leaf _ _ _) => upPrev p.reverse
  | _ => none

/-- Positions visited by repeatedly applying `Node::next`, starting from an
optional position (the iterator `++` chain).  The fuel argument only pads
the structural recursion; `BT.size` of the tree is always enough, since the
chain never revisits a position. -/
def asg2PosChain {K V : Type} (t : BT K V) : Option (List Bool) → Nat → List (List Bool)
  | none, _ => []
  | some _, 0 => []
  | some p, fuel + 1 => p :: asg2PosChain t (asg2NextPos t p) fuel

/-- Key/value pairs read by the iterator chain starting at `first_node`,
exactly what one side of `Tree::iteratorTraversal` (lines 442-455)
dereferences step by step. -/
def asg2IterPairs {K V : Type} (s : Asg2Tree K V) : List (K × V) :=
  (asg2PosChain s.root s.first_node s.root.size).filterMap (pairAt s.root)

/-- `Tree::iteratorTraversal` of asg2 (lines 442-455), the worker of
`operator==`: compare `node_count`, then walk both iterator chains in
lockstep while both are in bounds, comparing key (by double `comp`) and
value at each step. -/
def asg2TreeEq {K V : Type} [LinearOrder K] [DecidableEq V]
    (s t : Asg2Tree K V) : Bool :=
  s.node_count == t.node_count &&
    ((asg2IterPairs s).zip (asg2IterPairs t)).all
      (fun q => decide (¬ q.1.1 < q.2.1 ∧ ¬ q.2.1 < q.1.1) && q.1.2 == q.2.2)

/-- Well-formedness of an asg2 tree state: the search-tree invariant plus
consistency of the three cached members.  `asg2Empty` satisfies it and
`asg2Insert`/`asg2Clear` preserve it, so it holds in every reachable
state. -/
def wfState {K V : Type} [LinearOrder K] (s : Asg2Tree K V) : Prop :=
  isBSTB s.root = true ∧ s.node_count = s.root.size ∧
    s.first_node = leftmostPosOpt s.root ∧ s.last_node = rightmostPosOpt s.root

/-! ## final: the adjacency-list graph, DFS, topological sort.

`AdjacencyList` stores a `vList` of per-vertex records (for the `Directed`
and `Undirected` tags a stored vertex is only its out-edge list) and an
`eList` of stored edges.  The compile-time tag dispatch of the template is
modelled by separate functions per variant. -/

/-- An `OutEdge` adjacency record: target vertex and index of the edge in
`eList` (adjacency_list.hpp lines 31-44). -/
structure OutEdgeRec : Type where
  tar : Nat
  storedEdgeIdx : Nat
deriving DecidableEq

/-- A `StoredEdge` (lines 118-134), property-free. -/
structure StoredEdgeRec : Type where
  src : Nat
  tar : Nat
deriving DecidableEq

/-- A `StoredVertexDirected` (lines 69-87), the stored vertex of the
`Directed` and `Undirected` variants: just the out-edge list. -/
structure VertexRec : Type where
  eOut : List OutEdgeRec
deriving DecidableEq

/-- The `AdjacencyList` containers' state (lines 416-418). -/
structure AdjList : Type where
  vList : List VertexRec
  eList : List StoredEdgeRec
deriving DecidableEq

/-- An `EdgeDescriptor` (lines 150-182): endpoints plus position in
`eList`. -/
structure EdgeDesc : Type where
  src : Nat
  tar : Nat
  storedEdgeIdx : Nat
deriving DecidableEq

/-- `EdgeDescriptor::operator==` (lines 168-171): only the stored-edge
indices are compared. -/
def edgeDescBeq (a b : EdgeDesc) : Bool :=
  a.storedEdgeIdx == b.storedEdgeIdx

/-- `EdgeDescriptor::operator!=` (lines 178-181). -/
def edgeDescBne (a b : EdgeDesc) : Bool :=
  !(a.storedEdgeIdx == b.storedEdgeIdx)

/-- `numVertices` (lines 440-443). -/
def numVerts (g : AdjList) : Nat := g.vList.length

/-- `numEdges` (line 454). -/
def numEdgesD (g : AdjList) : Nat := g.eList.length

/-- `addVertex` (lines 538-556): append a fresh vertex record, return its
index. -/
def addVertexD (g : AdjList) : AdjList × Nat :=
  ({ g with vList := g.vList ++ [⟨[]⟩] }, g.vList.length)

/-- Append an adjacency record to vertex `u`'s out-edge list. -/
def pushOut (g : AdjList) (u : Nat) (rec : OutEdgeRec) : AdjList :=
  { g with vList := g.vList.set u ⟨(g.vList.getD u ⟨[]⟩).eOut ++ [rec]⟩ }

/-- Outcome of `addEdge`: success with the new graph and descriptor, a
failed `assert`, or an out-of-bounds `vList[u]` access (the undefined
behaviour that the `u <= g.vList.size()` assert lets through at
`u = numVertices`). -/
inductive AddEdgeRes : Type where
  | ok : AdjList → EdgeDesc → AddEdgeRes
  | assertFail : AddEdgeRes
  | oob : AddEdgeRes
deriving DecidableEq

/-- `addEdge(u, v, g)` of the `Directed` variant (lines 563-595), asserts
modelled as checks in source order: `u <= size && v <= size` (note `<=`,
not `<`), `u != v`, and — for every stored edge — `it.src != u && it.tar
!= v`.  On success the edge is appended to `eList` and an adjacency record
to `u`'s out-list. -/
def addEdgeDirected (u v : Nat) (g : AdjList) : AddEdgeRes :=
  if ¬ (u ≤ numVerts g ∧ v ≤ numVerts g) then .assertFail
  else if ¬ u ≠ v then .assertFail
  else if ¬ (∀ e ∈ g.eList, e.src ≠ u ∧ e.tar ≠ v) then .assertFail
  else
    let eList' := g.eList ++ [⟨u, v⟩]
    let ed : EdgeDesc := ⟨u, v, eList'.length - 1⟩
    if u < numVerts g then
      .ok (pushOut { g with eList := eList' } u ⟨ed.tar, ed.storedEdgeIdx⟩) ed
    else .oob

/-- `addEdge(u, v, g)` of the `Undirected` variant: same asserts, then the
descriptor is appended to both `u`'s and `v`'s out-lists (lines 583-588;
the record pushed to `v` carries the descriptor's target `v` itself, as the
code passes the whole descriptor). -/
def addEdgeUndirected (u v : Nat) (g : AdjList) : AddEdgeRes :=
  if ¬ (u ≤ numVerts g ∧ v ≤ numVerts g) then .assertFail
  else if ¬ u ≠ v then .assertFail
  else if ¬ (∀ e ∈ g.eList, e.src ≠ u ∧ e.tar ≠ v) then .assertFail
  else
    let eList' := g.eList ++ [⟨u, v⟩]
    let ed : EdgeDesc := ⟨u, v, eList'.length - 1⟩
    if u < numVerts g ∧ v < numVerts g then
      .ok (pushOut (pushOut { g with eList := eList' } u ⟨ed.tar, ed.storedEdgeIdx⟩)
            v ⟨ed.tar, ed.storedEdgeIdx⟩) ed
    else .oob

/-- `outDegree` for the `Undirected` tag (lines 481-485): the length of the
vertex's own out-edge list. -/
def outDegreeUndirected (v : Nat) (g : AdjList) : Nat :=
  (g.vList.getD v ⟨[]⟩).eOut.length

/-- `outDegree` for the `Directed` and `Bidirectional` tags (lines
486-498): count the stored edges having `v` as source *or* target. -/
def outDegreeDirected (v : Nat) (g : AdjList) : Nat :=
  (g.eList.filter (fun e => e.src == v || e.tar == v)).length

/-- `inDegree` for the `Directed` and `Bidirectional` tags (lines 519-531):
the same incident-edge count as `outDegreeDirected`. -/
def inDegreeDirected (v : Nat) (g : AdjList) : Nat :=
  (g.eList.filter (fun e => e.src == v || e.tar == v)).length

/-- Number of stored edges incident to `v` (source or target equals `v`). -/
def incidentCount (v : Nat) (es : List StoredEdgeRec) : Nat :=
  (es.filter (fun e => e.src == v || e.tar == v)).length

/-- Modelled from the spec: "count of edges leaving a vertex" — the number
of stored edges whose source is `v` (what §8's degree sentence asks
`outDegree` to return for a directed graph). -/
def edgesLeaving (v : Nat) (g : AdjList) : Nat :=
  (g.eList.filter (fun e => e.src == v)).length

/-- States of the `Undirected` adjacency list reachable through its public
mutators: a fresh container (`AdjacencyList()` / `AdjacencyList(n)`),
`addVertex`, and successful `addEdge` calls. -/
inductive ReachableU : AdjList → Prop where
  | base (n : Nat) : ReachableU ⟨List.replicate n ⟨[]⟩, []⟩
  | addV {g : AdjList} : ReachableU g → ReachableU (addVertexD g).1
  | addE {g g' : AdjList} {u v : Nat} {e : EdgeDesc} : ReachableU g →
      addEdgeUndirected u v g = .ok g' e → ReachableU g'

/-! ### Depth-first search and topological sort.

`dfs` (depth_first_search.hpp lines 81-98) keeps a colour per vertex and
calls `detail::dfsVisit` (lines 51-77) on every white vertex in index
order; `dfsVisit` paints the vertex grey, walks its out-edges recursing
into white targets (grey and black targets only fire no-op visitor hooks),
then paints the vertex black.  `topoSort` (topological_sort.hpp lines
25-28) is `dfs` with a visitor whose `finishVertex` appends the vertex to
the output sequence, so the output below carries the finish order in the
`out` field directly.  The recursion is paced by a fuel argument so that it
is structural; `dfsFuelFor` is proven sufficient, so the model computes
exactly what the C++ recursion does. -/

/-- `detail::DFSColour` (depth_first_search.hpp lines 44-49). -/
inductive Colour : Type where
  | White : Colour
  | Grey : Colour
  | Black : Colour
deriving DecidableEq

/-- DFS traversal state: the colour map and the output sequence the
topological-sort visitor appends to at each `finishVertex`. -/
structure DfsState : Type where
  colour : Nat → Colour
  out : List Nat

/-- Targets of the out-edges of `u`, in adjacency order: what
`outEdges(u, g)` dereferences to via `e.tar`. -/
def outAdj (g : AdjList) (u : Nat) : List Nat :=
  (g.vList.getD u ⟨[]⟩).eOut.map OutEdgeRec.tar

mutual

/-- `detail::dfsVisit` (paint grey, process the out-edge list, paint black
and record the finish) and its edge loop, fuel-paced. -/
def dfsVisit (g : AdjList) : Nat → Nat → DfsState → DfsState
  | 0, _, s => s
  | fuel + 1, u, s =>
      let s1 : DfsState := ⟨fun w => if w = u then .Grey else s.colour w, s.out⟩
      let s2 := dfsList g fuel (outAdj g u) s1
      ⟨fun w => if w = u then .Black else s2.colour w, s2.out ++ [u]⟩

/-- The `for (e : outEdges(u, g))` loop of `dfsVisit`: recurse into white
targets, leave grey (back edge) and black (forward/cross edge) targets
alone — their visitor hooks are no-ops for the topological-sort visitor. -/
def dfsList (g : AdjList) : Nat → List Nat → DfsState → DfsState
  | 0, _, s => s
  | _ + 1, [], s => s
  | fuel + 1, v :: rest, s =>
      let s' := if s.colour v = .White then dfsVisit g fuel v s else s
      dfsList g fuel rest s'

end

/-- Largest out-edge list length of any vertex. -/
def maxAdj (g : AdjList) : Nat :=
  (g.vList.map (fun vr => vr.eOut.length)).foldr max 0

/-- Fuel that provably suffices for every `dfsVisit` call of the run. -/
def dfsFuelFor (g : AdjList) : Nat :=
  (maxAdj g + 2) * (numVerts g + 1)

/-- `dfs(g, visitor)` (depth_first_search.hpp lines 81-98): all colours
start white; every still-white vertex is visited in index order. -/
def dfsRun (g : AdjList) : DfsState :=
  (List.range (numVerts g)).foldl
    (fun s u => if s.colour u = .White then dfsVisit g (dfsFuelFor g) u s else s)
    ⟨fun _ => .White, []⟩

/-- `topoSort(g, oIter)` (topological_sort.hpp lines 25-28): the sequence
of vertices in DFS finish order, as written through the output iterator by
`TopoVisitor::finishVertex`. -/
def topoSortOut (g : AdjList) : List Nat :=
  (dfsRun g).out

/-- The edge relation of the graph as the DFS sees it: `v` is a target of
one of `u`'s out-edges. -/
def EdgeRel (g : AdjList) (u v : Nat) : Prop :=
  u < numVerts g ∧ v ∈ outAdj g u

/-- Well-formed adjacency: every stored target is a valid vertex index. -/
def WfAdj (g : AdjList) : Prop :=
  ∀ u, u < numVerts g → ∀ v ∈ outAdj g u, v < numVerts g

/-- Acyclicity, in the form the DFS argument consumes: no edge closes a
directed cycle (there is no edge `u → v` together with a path `v →* u`). -/
def AcyclicG (g : AdjList) : Prop :=
  ∀ u v : Nat, EdgeRel g u v → ¬ Relation.ReflTransGen (EdgeRel g) v u

/-- Number of white vertices among `0..n-1`. -/
def countWhite (g : AdjList) (s : DfsState) : Nat :=
  ((List.range (numVerts g)).filter (fun w => s.colour w = .White)).length

/-! ## Concrete instances used by the claim theorems -/

/-- The two-node asg1 tree `1 → (right) 2`, the shape produced by the
insertion order 1, 2. -/
def exT12 : BT Int String := .node .leaf 1 "a" (.node .leaf 2 "b" .leaf)

/-- The duplicate-key tree asg1's `insert(2, "x")` produces from `exT12`. -/
def exT12Dup : BT Int String :=
  .node .leaf 1 "a" (.node .leaf 2 "b" (.node .leaf 2 "x" .leaf))

/-- The two-node tree `2 → (left) 1`, the shape produced by the insertion
order 2, 1. -/
def exT21 : BT Int String := .node (.node .leaf 1 "a" .leaf) 2 "b" .leaf

/-- asg2 state after `insert(1, "a"); insert(2, "b")` from the empty tree. -/
def exS12 : Asg2Tree Int String :=
  (asg2Insert (asg2Insert (asg2Empty Int String) 1 "a").1 2 "b").1

/-- asg2 state after `insert(2, "b"); insert(1, "a")` from the empty tree. -/
def exS21 : Asg2Tree Int String :=
  (asg2Insert (asg2Insert (asg2Empty Int String) 2 "b").1 1 "a").1

/-- A directed adjacency list with three vertices and no edges
(`AdjacencyList(3)`). -/
def exGEmpty3 : AdjList := ⟨[⟨[]⟩, ⟨[]⟩, ⟨[]⟩], []⟩

/-- `exGEmpty3` after a successful `addEdge(0, 1)`. -/
def exGDir : AdjList := ⟨[⟨[⟨1, 0⟩]⟩, ⟨[]⟩, ⟨[]⟩], [⟨0, 1⟩]⟩

/-- A two-vertex directed graph with the single edge `0 → 1`. -/
def exG2 : AdjList := ⟨[⟨[⟨1, 0⟩]⟩, ⟨[]⟩], [⟨0, 1⟩]⟩

/-- A two-vertex undirected graph after a successful `addEdge(0, 1)`. -/
def exGU : AdjList := ⟨[⟨[⟨1, 0⟩]⟩, ⟨[⟨1, 0⟩]⟩], [⟨0, 1⟩]⟩

/-- Key/value pair of the leftmost node (the node `front()` reads). -/
def leftmostPair? {K V : Type} : BT K V → Option (K × V)
  | .leaf => none
  | .node .leaf x w _ => some (x, w)
  | .node (.node a b c d) _ _ _ => leftmostPair? (.node a b c d)

/-- Key/value pair of the rightmost node (the node `back()` reads). -/
def rightmostPair? {K V : Type} : BT K V → Option (K × V)
  | .leaf => none
  | .node _ x w .leaf => some (x, w)
  | .node _ _ _ (.node a b c d) => rightmostPair? (.node a b c d)

/-- Element following the first occurrence of `p` in a list. -/
def nextAfter {A : Type} [DecidableEq A] : List A → A → Option A
  | [], _ => none
  | a :: rest, p => if a = p then rest.head? else nextAfter rest p

/-- Rank of a DFS colour: colours only ever move up during a traversal. -/
def colourRank : Colour → Nat
  | .White => 0
  | .Grey => 1
  | .Black => 2
/-- Invariant of a DFS traversal state: the output is duplicate-free and
in range, a vertex is black exactly when it has been output, vertices out
of range are untouched, and every out-neighbour of an output vertex was
output strictly earlier (the topological-order core). -/
def DfsInv (g : AdjList) (s : DfsState) : Prop :=
  s.out.Nodup ∧
  (∀ w ∈ s.out, w < numVerts g) ∧
  (∀ w, s.colour w = .Black ↔ w ∈ s.out) ∧
  (∀ w, ¬ w < numVerts g → s.colour w = .White) ∧
  (∀ a b, EdgeRel g a b → a ∈ s.out →
    b ∈ s.out ∧ s.out.indexOf b < s.out.indexOf a)

/-- What one traversal step guarantees about the state transition: the
invariant is kept, colours only move up, the grey set is unchanged, the
output only grows at the back, and white vertices do not appear. -/
def DfsStep (g : AdjList) (s s' : DfsState) : Prop :=
  DfsInv g s' ∧
  (∀ w, colourRank (s.colour w) ≤ colourRank (s'.colour w)) ∧
  (∀ w, s'.colour w = .Grey ↔ s.colour w = .Grey) ∧
  (∃ tail, s'.out = s.out ++ tail) ∧
  countWhite g s' ≤ countWhite g s

/-- The top-level loop body of `dfs` over an explicit vertex list: visit
each still-white vertex in order.  `dfsRun g` is definitionally
`dfsFold g (List.range (numVerts g))` from the all-white state. -/
def dfsFold (g : AdjList) (L : List Nat) (s : DfsState) : DfsState :=
  L.foldl
    (fun t u => if t.colour u = .White then dfsVisit g (dfsFuelFor g) u t else t) s

/-! ## Basic lemmas about positions, `setValue`, `findNodePos` and the
insertion walk -/

theorem pairAt_node_nil {K V : Type} (l : BT K V) (x : K) (w : V) (r : BT K V) :
    pairAt (.node l x w r) [] = some (x, w) := rfl

theorem pairAt_node_cons_false {K V : Type} (l : BT K V) (x : K) (w : V)
    (r : BT K V) (q : List Bool) : pairAt (.node l x w r) (false :: q) = pairAt l q := rfl

theorem pairAt_node_cons_true {K V : Type} (l : BT K V) (x : K) (w : V)
    (r : BT K V) (q : List Bool) : pairAt (.node l x w r) (true :: q) = pairAt r q := rfl

theorem pairAt_leaf {K V : Type} (q : List Bool) : pairAt (.leaf : BT K V) q = none := by
  cases q with
  | nil => rfl
  | cons d p => rfl

theorem setValue_leaf {K V : Type} (p : List Bool) (v : V) :
    setValue (.leaf : BT K V) p v = .leaf := by
  cases p with
  | nil => rfl
  | cons d q => cases d <;> rfl

theorem findNodePos_node_found {K V : Type} [LinearOrder K] {x k : K}
    (l r : BT K V) (w : V) (h : ¬ x < k ∧ ¬ k < x) :
    findNodePos (.node l x w r) k = some [] := by
  simp only [findNodePos, if_pos h]

theorem findNodePos_node_right {K V : Type} [LinearOrder K] {x k : K}
    (l r : BT K V) (w : V) (h : x < k) :
    findNodePos (.node l x w r) k = (findNodePos r k).map (fun p => true :: p) := by
  have hc : ¬ (¬ x < k ∧ ¬ k < x) := fun hh => hh.1 h
  simp only [findNodePos, if_neg hc, if_pos h]

theorem findNodePos_node_left {K V : Type} [LinearOrder K] {x k : K}
    (l r : BT K V) (w : V) (h : k < x) :
    findNodePos (.node l x w r) k = (findNodePos l k).map (fun p => false :: p) := by
  have hc : ¬ (¬ x < k ∧ ¬ k < x) := fun hh => hh.2 h
  have hx : ¬ x < k := lt_asymm h
  simp only [findNodePos, if_neg hc, if_neg hx]

theorem asg2InsertWalk_left_leaf {K V : Type} [LinearOrder K] {x k : K}
    (r : BT K V) (w : V) (v : V) (h : k < x) :
    asg2InsertWalk (.node .leaf x w r) k v =
      (.node (.node .leaf k v .leaf) x w r, [false]) := by
  unfold asg2InsertWalk; rw [if_pos h]

theorem asg2InsertWalk_left_node {K V : Type} [LinearOrder K] {x k : K}
    (l r : BT K V) (w : V) (v : V) (h : k < x) (hl : l ≠ .leaf) :
    asg2InsertWalk (.node l x w r) k v =
      (.node (asg2InsertWalk l k v).1 x w r, false :: (asg2InsertWalk l k v).2) := by
  cases l with
  | leaf => exact absurd rfl hl
  | node a b c d =>
      conv_lhs => unfold asg2InsertWalk
      rw [if_pos h]

theorem asg2InsertWalk_right_leaf {K V : Type} [LinearOrder K] {x k : K}
    (l : BT K V) (w : V) (v : V) (h : ¬ k < x) :
    asg2InsertWalk (.node l x w .leaf) k v =
      (.node l x w (.node .leaf k v .leaf), [true]) := by
  unfold asg2InsertWalk; rw [if_neg h]

theorem asg2InsertWalk_right_node {K V : Type} [LinearOrder K] {x k : K}
    (l r : BT K V) (w : V) (v : V) (h : ¬ k < x) (hr : r ≠ .leaf) :
    asg2InsertWalk (.node l x w r) k v =
      (.node l x w (asg2InsertWalk r k v).1, true :: (asg2InsertWalk r k v).2) := by
  cases r with
  | leaf => exact absurd rfl hr
  | node a b c d =>
      conv_lhs => unfold asg2InsertWalk
      rw [if_neg h]

theorem findNodePos_setValue {K V : Type} [LinearOrder K] (t : BT K V)
    (p : List Bool) (v : V) (k : K) :
    findNodePos (setValue t p v) k = findNodePos t k := by
  induction t generalizing p with
  | leaf => rw [setValue_leaf]
  | node l x w r ihl ihr =>
      cases p with
      | nil => simp only [setValue, findNodePos]
      | cons d q =>
          cases d <;> simp only [setValue, findNodePos, ihl, ihr]

theorem pairAt_setValue_self {K V : Type} (t : BT K V) (p : List Bool) (v : V) :
    pairAt (setValue t p v) p = (pairAt t p).map (fun kv => (kv.1, v)) := by
  induction t generalizing p with
  | leaf => rw [setValue_leaf]; simp [pairAt_leaf]
  | node l x w r ihl ihr =>
      cases p with
      | nil => simp [setValue, pairAt_node_nil]
      | cons d q =>
          cases d <;>
            simp only [setValue, pairAt_node_cons_false, pairAt_node_cons_true, ihl, ihr]

theorem pairAt_setValue_ne {K V : Type} (t : BT K V) (p q : List Bool) (v : V)
    (h : q ≠ p) : pairAt (setValue t p v) q = pairAt t q := by
  induction t generalizing p q with
  | leaf => rw [setValue_leaf]
  | node l x w r ihl ihr =>
      cases p with
      | nil =>
          cases q with
          | nil => exact absurd rfl h
          | cons d q' =>
              cases d <;>
                simp only [setValue, pairAt_node_cons_false, pairAt_node_cons_true]
      | cons d p' =>
          cases q with
          | nil => cases d <;> simp only [setValue, pairAt_node_nil]
          | cons e q' =>
              cases d <;> cases e <;>
                simp only [setValue, pairAt_node_cons_false, pairAt_node_cons_true]
              · exact ihl p' q' (fun hh => h (by rw [hh]))
              · exact ihr p' q' (fun hh => h (by rw [hh]))

theorem findNodePos_valid {K V : Type} [LinearOrder K] (t : BT K V) (k : K)
    (p : List Bool) (h : findNodePos t k = some p) :
    ∃ w, pairAt t p = some (k, w) := by
  induction t generalizing p with
  | leaf => simp [findNodePos] at h
  | node l x w r ihl ihr =>
      by_cases heq : ¬ x < k ∧ ¬ k < x
      · have hxk : x = k := le_antisymm (not_lt.mp heq.2) (not_lt.mp heq.1)
        rw [findNodePos_node_found l r w heq] at h
        obtain rfl : p = [] := by injection h with hh; exact hh.symm
        exact ⟨w, by rw [pairAt_node_nil, hxk]⟩
      · by_cases hlt : x < k
        · rw [findNodePos_node_right l r w hlt] at h
          obtain ⟨q, hq, rfl⟩ := Option.map_eq_some'.mp h
          obtain ⟨w', hw⟩ := ihr q hq
          exact ⟨w', by rw [pairAt_node_cons_true]; exact hw⟩
        · have hkx : k < x := by
            rcases not_and_or.mp heq with h1 | h1
            · exact absurd (not_not.mp h1) hlt
            · exact not_not.mp h1
          rw [findNodePos_node_left l r w hkx] at h
          obtain ⟨q, hq, rfl⟩ := Option.map_eq_some'.mp h
          obtain ⟨w', hw⟩ := ihl q hq
          exact ⟨w', by rw [pairAt_node_cons_false]; exact hw⟩

theorem insertWalk_find {K V : Type} [LinearOrder K] (t : BT K V) (k : K) (v : V)
    (h : findNodePos t k = none) :
    findNodePos (asg2InsertWalk t k v).1 k = some (asg2InsertWalk t k v).2 ∧
      pairAt (asg2InsertWalk t k v).1 (asg2InsertWalk t k v).2 = some (k, v) := by
  induction t with
  | leaf =>
      constructor
      · show findNodePos (.node .leaf k v .leaf) k = some []
        exact findNodePos_node_found _ _ _ ⟨lt_irrefl k, lt_irrefl k⟩
      · rfl
  | node l x w r ihl ihr =>
      by_cases heq : ¬ x < k ∧ ¬ k < x
      · rw [findNodePos_node_found l r w heq] at h; exact absurd h (by simp)
      · by_cases hkx : k < x
        · have hl : findNodePos l k = none := by
            rw [findNodePos_node_left l r w hkx] at h
            exact Option.map_eq_none'.mp h
          cases l with
          | leaf =>
              rw [asg2InsertWalk_left_leaf r w v hkx]
              constructor
              · rw [findNodePos_node_left _ r w hkx]
                rw [findNodePos_node_found .leaf .leaf v ⟨lt_irrefl k, lt_irrefl k⟩]
                rfl
              · rw [pairAt_node_cons_false, pairAt_node_nil]
          | node a b c d =>
              obtain ⟨ih1, ih2⟩ := ihl hl
              rw [asg2InsertWalk_left_node _ r w v hkx (by simp)]
              constructor
              · rw [findNodePos_node_left _ r w hkx, ih1]; rfl
              · rw [pairAt_node_cons_false]; exact ih2
        · have hxk : x < k := by
            rcases not_and_or.mp heq with h1 | h1
            · exact not_not.mp h1
            · exact absurd (not_not.mp h1) hkx
          have hr : findNodePos r k = none := by
            rw [findNodePos_node_right l r w hxk] at h
            exact Option.map_eq_none'.mp h
          cases r with
          | leaf =>
              rw [asg2InsertWalk_right_leaf l w v hkx]
              constructor
              · rw [findNodePos_node_right l _ w hxk]
                rw [findNodePos_node_found .leaf .leaf v ⟨lt_irrefl k, lt_irrefl k⟩]
                rfl
              · rw [pairAt_node_cons_true, pairAt_node_nil]
          | node a b c d =>
              obtain ⟨ih1, ih2⟩ := ihr hr
              rw [asg2InsertWalk_right_node l _ w v hkx (by simp)]
              constructor
              · rw [findNodePos_node_right l _ w hxk, ih1]; rfl
              · rw [pairAt_node_cons_true]; exact ih2

/-- The general find-after-insert law of the asg2 tree: after
`insert(k, v)`, `find(k)` dereferences to exactly `v`, whatever the prior
state. -/
theorem asg2_find_after_insert {K V : Type} [LinearOrder K]
    (s : Asg2Tree K V) (k : K) (v : V) :
    asg2FindVal (asg2Insert s k v).1 k = some v := by
  cases hf : findNodePos s.root k with
  | some p =>
      obtain ⟨w, hw⟩ := findNodePos_valid s.root k p hf
      simp only [asg2Insert, hf, asg2FindVal, findNodePos_setValue]
      simp [pairAt_setValue_self, hw]
  | none =>
      cases hroot : s.root with
      | leaf =>
          rw [hroot] at hf
          simp only [asg2Insert, hroot, hf, asg2FindVal]
          rw [findNodePos_node_found .leaf .leaf v ⟨lt_irrefl k, lt_irrefl k⟩]
          simp [pairAt_node_nil]
      | node a b c d =>
          rw [hroot] at hf
          obtain ⟨h1, h2⟩ := insertWalk_find (BT.node a b c d) k v hf
          simp only [asg2Insert, hroot, hf, asg2FindVal]
          rw [h1]
          simp [h2]

/-- C1: after `insert(k, v)`, `find(k)` must return a found handle whose
value is `v`, in both tree versions.  The asg2 version satisfies this for
every state (last conjunct).  The asg1 version does not: `find` on an empty
tree dereferences the null root (first conjunct), so the very first
`insert` of any sequence performs that null dereference before its own
null-root check (second conjunct); and in the well-formed two-node tree
`exT12`, whose node at position `[true]` stores `(2, "b")`, `find(2)`
returns its not-found answer because the matching node is childless (third
conjunct). -/
theorem claim_C1_find_after_insert :
    (asg1Find .leaf 1 = .nullDeref) ∧
    (asg1Insert .leaf 1 "a" = none) ∧
    (isBSTB exT12 = true ∧ pairAt exT12 [true] = some (2, "b") ∧
      asg1Find exT12 2 = .notFound) ∧
    (∀ (K V : Type) [LinearOrder K] (s : Asg2Tree K V) (k : K) (v : V),
      asg2FindVal (asg2Insert s k v).1 k = some v) := by
  refine ⟨by decide, by decide, ⟨by decide, by decide, by decide⟩, ?_⟩
  intro K V _ s k v
  exact asg2_find_after_insert s k v

/-- C2: `addEdge` is claimed to fail checkably exactly on self-loops,
invalid endpoints and exact duplicates of the ordered pair `(u, v)`.
Evaluating the model: a first `addEdge(0, 1)` succeeds; the self-loop and
the exact duplicate are indeed rejected; but `addEdge(0, 2)` — not a
duplicate — is also rejected, because the per-edge assert compares
`it.src != u && it.tar != v` edge by edge; and `addEdge(3, 0)` with
`3 = numVertices` (an invalid index) passes the `u <= g.vList.size()`
validation and runs into the out-of-bounds `vList[u]` access instead of
failing checkably. -/
theorem claim_C2_addEdge_asserts :
    (addEdgeDirected 0 1 exGEmpty3 = .ok exGDir ⟨0, 1, 0⟩) ∧
    (addEdgeDirected 1 1 exGEmpty3 = .assertFail) ∧
    (addEdgeDirected 0 1 exGDir = .assertFail) ∧
    (addEdgeDirected 0 2 exGDir = .assertFail) ∧
    (addEdgeDirected 3 0 exGEmpty3 = .oob) := by
  refine ⟨by decide, by decide, by decide, by decide, by decide⟩

/-- C7: neighbour navigation.  In asg1, `next()` on the node `2` of
`exT12` (a right child with no right subtree) repeats its climbing loop
forever, and on the root of a single-node tree returns the node itself
rather than the null end marker; `prev()` mirrors both failures.  The asg2
version handles the same inputs as the claim describes: successor of the
root of `exT12` is its right child, the maximum has no successor, the
predecessor of the right child is the root, and the minimum has no
predecessor. -/
theorem claim_C7_next_prev_eval :
    (asg1NextRes exT12 [true] = .diverges) ∧
    (asg1NextRes (.node .leaf 1 "a" .leaf) [] = .ret (some [])) ∧
    (asg1PrevRes exT21 [false] = .diverges) ∧
    (asg1PrevRes (.node .leaf 1 "a" .leaf) [] = .ret (some [])) ∧
    (asg2NextPos exT12 [] = some [true]) ∧
    (asg2NextPos exT12 [true] = none) ∧
    (asg2PrevPos exT12 [true] = some []) ∧
    (asg2PrevPos exT21 [false] = none) := by
  refine ⟨by decide, by decide, by decide, by decide, by decide, by decide, by decide,
    by decide⟩

/-- C10: `EdgeDescriptor` equality compares only the stored-edge index:
the boolean equality holds iff the indices agree, and two descriptors with
different endpoints but the same storage position compare equal (and their
`!=` denies any difference). -/
theorem claim_C10_edge_descriptor_eq :
    (∀ a b : EdgeDesc, edgeDescBeq a b = true ↔ a.storedEdgeIdx = b.storedEdgeIdx) ∧
    (edgeDescBeq ⟨0, 1, 5⟩ ⟨2, 3, 5⟩ = true) ∧
    (edgeDescBne ⟨0, 1, 5⟩ ⟨2, 3, 5⟩ = false) := by
  refine ⟨?_, by decide, by decide⟩
  intro a b
  simp [edgeDescBeq]

/-- C6 counterexample: the two asg2 states reached by inserting
`(1, "a"), (2, "b")` in the two possible orders store the same key/value
pairs in different shapes, yet `operator==` (iterator traversal) declares
them equal — refuting "equal iff identical shape and identical pairs at
every corresponding position" for the asg2 version. -/
theorem claim_C6_counterexample :
    asg2TreeEq exS12 exS21 = true ∧ exS12.root ≠ exS21.root ∧
      exS12.root.pairs = exS21.root.pairs := by
  refine ⟨by decide, by decide, by decide⟩

/-- C9 counterexample: in the directed two-vertex graph with the single
edge `0 → 1`, the code's `outDegree(1)` is `1` although no edge leaves
vertex `1` — `outDegree` of the Directed variant counts incident edges,
not outgoing ones. -/
theorem claim_C9_counterexample :
    outDegreeDirected 1 exG2 = 1 ∧ edgesLeaving 1 exG2 = 0 := by
  refine ⟨by decide, by decide⟩

/-! ## Keys, sizes and the search-tree invariant under the tree operations -/

theorem keys_node {K V : Type} (l : BT K V) (x : K) (w : V) (r : BT K V) :
    (BT.node l x w r).keys = l.keys ++ x :: r.keys := by
  simp [BT.keys, BT.pairs]

theorem keys_leaf {K V : Type} : (.leaf : BT K V).keys = [] := rfl

theorem isBSTB_node_iff {K V : Type} [LinearOrder K] {l r : BT K V} {x : K} {w : V} :
    isBSTB (.node l x w r) = true ↔
      (∀ a ∈ l.keys, a < x) ∧ (∀ a ∈ r.keys, x < a) ∧
        isBSTB l = true ∧ isBSTB r = true := by
  simp [isBSTB, List.all_eq_true, and_assoc]

theorem keys_setValue {K V : Type} (t : BT K V) (p : List Bool) (v : V) :
    (setValue t p v).keys = t.keys := by
  induction t generalizing p with
  | leaf => rw [setValue_leaf]
  | node l x w r ihl ihr =>
      cases p with
      | nil => simp [setValue, keys_node]
      | cons d q => cases d <;> simp [setValue, keys_node, ihl, ihr]

theorem isBSTB_setValue {K V : Type} [LinearOrder K] (t : BT K V) (p : List Bool)
    (v : V) : isBSTB (setValue t p v) = isBSTB t := by
  induction t generalizing p with
  | leaf => rw [setValue_leaf]
  | node l x w r ihl ihr =>
      cases p with
      | nil => simp [setValue, isBSTB]
      | cons d q => cases d <;> simp [setValue, isBSTB, keys_setValue, ihl, ihr]

theorem size_setValue {K V : Type} (t : BT K V) (p : List Bool) (v : V) :
    (setValue t p v).size = t.size := by
  induction t generalizing p with
  | leaf => rw [setValue_leaf]
  | node l x w r ihl ihr =>
      cases p with
      | nil => simp [setValue, BT.size]
      | cons d q => cases d <;> simp [setValue, BT.size, ihl, ihr]

set_option maxHeartbeats 1000000 in
theorem mem_keys_insertWalk {K V : Type} [LinearOrder K] (t : BT K V) (k : K)
    (v : V) (a : K) :
    a ∈ (asg2InsertWalk t k v).1.keys ↔ a = k ∨ a ∈ t.keys := by
  induction t with
  | leaf => simp [asg2InsertWalk, keys_node, keys_leaf]
  | node l x w r ihl ihr =>
      by_cases hkx : k < x
      · cases l with
        | leaf =>
            rw [asg2InsertWalk_left_leaf r w v hkx]
            simp only [keys_node, keys_leaf, List.mem_append, List.mem_cons,
              List.not_mem_nil]
            tauto
        | node e b c d =>
            rw [asg2InsertWalk_left_node (BT.node e b c d) r w v hkx nofun]
            set q := asg2InsertWalk (BT.node e b c d) k v with hq
            simp only [keys_node, List.mem_append, List.mem_cons] at ihl ⊢
            tauto
      · cases r with
        | leaf =>
            rw [asg2InsertWalk_right_leaf l w v hkx]
            simp only [keys_node, keys_leaf, List.mem_append, List.mem_cons,
              List.not_mem_nil]
            tauto
        | node e b c d =>
            rw [asg2InsertWalk_right_node l (BT.node e b c d) w v hkx nofun]
            set q := asg2InsertWalk (BT.node e b c d) k v with hq
            simp only [keys_node, List.mem_append, List.mem_cons] at ihr ⊢
            tauto

theorem size_insertWalk {K V : Type} [LinearOrder K] (t : BT K V) (k : K) (v : V) :
    (asg2InsertWalk t k v).1.size = t.size + 1 := by
  induction t with
  | leaf => simp [asg2InsertWalk, BT.size]
  | node l x w r ihl ihr =>
      by_cases hkx : k < x
      · cases l with
        | leaf =>
            rw [asg2InsertWalk_left_leaf r w v hkx]
            simp only [BT.size]
            try omega
        | node e b c d =>
            rw [asg2InsertWalk_left_node (BT.node e b c d) r w v hkx nofun]
            set q := asg2InsertWalk (BT.node e b c d) k v with hq
            simp only [BT.size]
            rw [ihl]
            simp only [BT.size]
            omega
      · cases r with
        | leaf =>
            rw [asg2InsertWalk_right_leaf l w v hkx]
            simp only [BT.size]
            try omega
        | node e b c d =>
            rw [asg2InsertWalk_right_node l (BT.node e b c d) w v hkx nofun]
            set q := asg2InsertWalk (BT.node e b c d) k v with hq
            simp only [BT.size]
            rw [ihr]
            simp only [BT.size]
            omega

set_option maxHeartbeats 1000000 in
theorem isBSTB_insertWalk {K V : Type} [LinearOrder K] (t : BT K V) (k : K) (v : V)
    (hb : isBSTB t = true) (hf : findNodePos t k = none) :
    isBSTB (asg2InsertWalk t k v).1 = true := by
  induction t with
  | leaf => simp [asg2InsertWalk, isBSTB, keys_leaf]
  | node l x w r ihl ihr =>
      obtain ⟨hbl, hbr, hl, hr⟩ := isBSTB_node_iff.mp hb
      by_cases heq : ¬ x < k ∧ ¬ k < x
      · rw [findNodePos_node_found l r w heq] at hf; exact absurd hf (by simp)
      · by_cases hkx : k < x
        · have hfl : findNodePos l k = none := by
            rw [findNodePos_node_left l r w hkx] at hf
            exact Option.map_eq_none'.mp hf
          cases l with
          | leaf =>
              rw [asg2InsertWalk_left_leaf r w v hkx]
              refine isBSTB_node_iff.mpr ⟨?_, hbr, ?_, hr⟩
              · intro a ha
                simp [keys_node, keys_leaf] at ha
                rw [ha]; exact hkx
              · simp [isBSTB, keys_leaf]
          | node e b c d =>
              rw [asg2InsertWalk_left_node (BT.node e b c d) r w v hkx nofun]
              set q := asg2InsertWalk (BT.node e b c d) k v with hq
              refine isBSTB_node_iff.mpr ⟨?_, hbr, ihl hl hfl, hr⟩
              intro a ha
              rcases (mem_keys_insertWalk _ k v a).mp ha with rfl | ha
              · exact hkx
              · exact hbl a ha
        · have hxk : x < k := by
            rcases not_and_or.mp heq with h1 | h1
            · exact not_not.mp h1
            · exact absurd (not_not.mp h1) hkx
          have hfr : findNodePos r k = none := by
            rw [findNodePos_node_right l r w hxk] at hf
            exact Option.map_eq_none'.mp hf
          cases r with
          | leaf =>
              rw [asg2InsertWalk_right_leaf l w v hkx]
              refine isBSTB_node_iff.mpr ⟨hbl, ?_, hl, ?_⟩
              · intro a ha
                simp [keys_node, keys_leaf] at ha
                rw [ha]; exact hxk
              · simp [isBSTB, keys_leaf]
          | node e b c d =>
              rw [asg2InsertWalk_right_node l (BT.node e b c d) w v hkx nofun]
              set q := asg2InsertWalk (BT.node e b c d) k v with hq
              refine isBSTB_node_iff.mpr ⟨hbl, ?_, hl, ihr hr hfr⟩
              intro a ha
              rcases (mem_keys_insertWalk _ k v a).mp ha with rfl | ha
              · exact hxk
              · exact hbr a ha

/-! ## The leftmost/rightmost node: spines, min/max keys, cache maintenance -/

theorem pairAt_leftSpine {K V : Type} (t : BT K V) :
    pairAt t (leftSpine t) = leftmostPair? t := by
  induction t with
  | leaf => simp [leftSpine, pairAt_leaf, leftmostPair?]
  | node l x w r ihl ihr =>
      cases l with
      | leaf => simp [leftSpine, leftmostPair?, pairAt_node_nil]
      | node e b c d =>
          show pairAt _ (false :: leftSpine (BT.node e b c d)) = _
          rw [pairAt_node_cons_false]
          exact ihl

theorem pairAt_rightSpine {K V : Type} (t : BT K V) :
    pairAt t (rightSpine t) = rightmostPair? t := by
  induction t with
  | leaf => simp [rightSpine, pairAt_leaf, rightmostPair?]
  | node l x w r ihl ihr =>
      cases r with
      | leaf => simp [rightSpine, rightmostPair?, pairAt_node_nil]
      | node e b c d =>
          show pairAt _ (true :: rightSpine (BT.node e b c d)) = _
          rw [pairAt_node_cons_true]
          exact ihr

theorem leftmostPair?_isSome {K V : Type} (l : BT K V) (x : K) (w : V) (r : BT K V) :
    ∃ kv, leftmostPair? (.node l x w r) = some kv := by
  induction l generalizing x w r with
  | leaf => exact ⟨(x, w), rfl⟩
  | node e b c d ihe ihd =>
      show ∃ kv, leftmostPair? (BT.node e b c d) = some kv
      exact ihe b c d

theorem rightmostPair?_isSome {K V : Type} (l : BT K V) (x : K) (w : V) (r : BT K V) :
    ∃ kv, rightmostPair? (.node l x w r) = some kv := by
  induction r generalizing x w l with
  | leaf => exact ⟨(x, w), rfl⟩
  | node e b c d ihe ihd =>
      show ∃ kv, rightmostPair? (BT.node e b c d) = some kv
      exact ihd e b c

theorem leftmostPair?_key_mem {K V : Type} (t : BT K V) {kv : K × V}
    (h : leftmostPair? t = some kv) : kv.1 ∈ t.keys := by
  induction t with
  | leaf => simp [leftmostPair?] at h
  | node l x w r ihl ihr =>
      cases l with
      | leaf =>
          simp only [leftmostPair?] at h
          injection h with h
          simp [keys_node, keys_leaf, ← h]
      | node e b c d =>
          have hm := ihl (by simpa [leftmostPair?] using h)
          rw [keys_node]
          exact List.mem_append.mpr (Or.inl hm)

theorem rightmostPair?_key_mem {K V : Type} (t : BT K V) {kv : K × V}
    (h : rightmostPair? t = some kv) : kv.1 ∈ t.keys := by
  induction t with
  | leaf => simp [rightmostPair?] at h
  | node l x w r ihl ihr =>
      cases r with
      | leaf =>
          simp only [rightmostPair?] at h
          injection h with h
          simp [keys_node, ← h]
      | node e b c d =>
          have hm := ihr (by simpa [rightmostPair?] using h)
          rw [keys_node]
          refine List.mem_append.mpr (Or.inr ?_)
          exact List.mem_cons_of_mem _ hm

theorem leftmostPair?_key_le {K V : Type} [LinearOrder K] (t : BT K V)
    (hb : isBSTB t = true) {kv : K × V} (h : leftmostPair? t = some kv) :
    ∀ a ∈ t.keys, kv.1 ≤ a := by
  induction t with
  | leaf => simp [leftmostPair?] at h
  | node l x w r ihl ihr =>
      obtain ⟨hl, hr, hbl, hbr⟩ := isBSTB_node_iff.mp hb
      intro a ha
      rw [keys_node] at ha
      simp only [List.mem_append, List.mem_cons] at ha
      cases l with
      | leaf =>
          simp only [leftmostPair?] at h
          injection h with h
          subst h
          rcases ha with ha | rfl | ha
          · simp [keys_leaf] at ha
          · exact le_refl _
          · exact le_of_lt (hr a ha)
      | node e b c d =>
          have h' : leftmostPair? (BT.node e b c d) = some kv := by
            simpa [leftmostPair?] using h
          have hkx : kv.1 < x := hl kv.1 (leftmostPair?_key_mem _ h')
          rcases ha with ha | rfl | ha
          · exact ihl hbl h' a ha
          · exact le_of_lt hkx
          · exact le_of_lt (lt_trans hkx (hr a ha))

theorem rightmostPair?_key_ge {K V : Type} [LinearOrder K] (t : BT K V)
    (hb : isBSTB t = true) {kv : K × V} (h : rightmostPair? t = some kv) :
    ∀ a ∈ t.keys, a ≤ kv.1 := by
  induction t with
  | leaf => simp [rightmostPair?] at h
  | node l x w r ihl ihr =>
      obtain ⟨hl, hr, hbl, hbr⟩ := isBSTB_node_iff.mp hb
      intro a ha
      rw [keys_node] at ha
      simp only [List.mem_append, List.mem_cons] at ha
      cases r with
      | leaf =>
          simp only [rightmostPair?] at h
          injection h with h
          subst h
          rcases ha with ha | rfl | ha
          · exact le_of_lt (hl a ha)
          · exact le_refl _
          · simp [keys_leaf] at ha
      | node e b c d =>
          have h' : rightmostPair? (BT.node e b c d) = some kv := by
            simpa [rightmostPair?] using h
          have hkx : x < kv.1 := hr kv.1 (rightmostPair?_key_mem _ h')
          rcases ha with ha | rfl | ha
          · exact le_of_lt (lt_trans (hl a ha) hkx)
          · exact le_of_lt hkx
          · exact ihr hbr h' a ha

theorem setValue_node_shape {K V : Type} (l : BT K V) (x : K) (w : V) (r : BT K V)
    (p : List Bool) (v : V) :
    ∃ l2 x2 w2 r2, setValue (.node l x w r) p v = .node l2 x2 w2 r2 := by
  cases p with
  | nil => exact ⟨l, x, v, r, rfl⟩
  | cons d q =>
      cases d
      · exact ⟨setValue l q v, x, w, r, rfl⟩
      · exact ⟨l, x, w, setValue r q v, rfl⟩

theorem leftSpine_setValue {K V : Type} (t : BT K V) (p : List Bool) (v : V) :
    leftSpine (setValue t p v) = leftSpine t := by
  induction t generalizing p with
  | leaf => rw [setValue_leaf]
  | node l x w r ihl ihr =>
      cases p with
      | nil => cases l <;> rfl
      | cons d q =>
          cases d
          · show leftSpine (.node (setValue l q v) x w r) = _
            cases l with
            | leaf => rw [setValue_leaf]
            | node e b c d2 =>
                obtain ⟨l2, x2, w2, r2, heq⟩ := setValue_node_shape e b c d2 q v
                rw [heq]
                show false :: leftSpine (.node l2 x2 w2 r2) = false :: leftSpine (.node e b c d2)
                rw [← heq, ihl]
          · show leftSpine (.node l x w (setValue r q v)) = _
            cases l <;> rfl

theorem rightSpine_setValue {K V : Type} (t : BT K V) (p : List Bool) (v : V) :
    rightSpine (setValue t p v) = rightSpine t := by
  induction t generalizing p with
  | leaf => rw [setValue_leaf]
  | node l x w r ihl ihr =>
      cases p with
      | nil => cases r <;> rfl
      | cons d q =>
          cases d
          · show rightSpine (.node (setValue l q v) x w r) = _
            cases r <;> rfl
          · show rightSpine (.node l x w (setValue r q v)) = _
            cases r with
            | leaf => rw [setValue_leaf]
            | node e b c d2 =>
                obtain ⟨l2, x2, w2, r2, heq⟩ := setValue_node_shape e b c d2 q v
                rw [heq]
                show true :: rightSpine (.node l2 x2 w2 r2) = true :: rightSpine (.node e b c d2)
                rw [← heq, ihr]

theorem leftmostPosOpt_setValue {K V : Type} (t : BT K V) (p : List Bool) (v : V) :
    leftmostPosOpt (setValue t p v) = leftmostPosOpt t := by
  cases t with
  | leaf => rw [setValue_leaf]
  | node l x w r =>
      obtain ⟨l2, x2, w2, r2, heq⟩ := setValue_node_shape l x w r p v
      rw [heq]
      show some (leftSpine (.node l2 x2 w2 r2)) = some (leftSpine (.node l x w r))
      rw [← heq, leftSpine_setValue]

theorem rightmostPosOpt_setValue {K V : Type} (t : BT K V) (p : List Bool) (v : V) :
    rightmostPosOpt (setValue t p v) = rightmostPosOpt t := by
  cases t with
  | leaf => rw [setValue_leaf]
  | node l x w r =>
      obtain ⟨l2, x2, w2, r2, heq⟩ := setValue_node_shape l x w r p v
      rw [heq]
      show some (rightSpine (.node l2 x2 w2 r2)) = some (rightSpine (.node l x w r))
      rw [← heq, rightSpine_setValue]

theorem insertWalk_node_shape {K V : Type} [LinearOrder K] (t : BT K V) (k : K)
    (v : V) : ∃ l2 x2 w2 r2, (asg2InsertWalk t k v).1 = .node l2 x2 w2 r2 := by
  cases t with
  | leaf => exact ⟨.leaf, k, v, .leaf, rfl⟩
  | node l x w r =>
      by_cases hkx : k < x
      · cases l with
        | leaf => rw [asg2InsertWalk_left_leaf r w v hkx]; exact ⟨_, _, _, _, rfl⟩
        | node e b c d =>
            rw [asg2InsertWalk_left_node (BT.node e b c d) r w v hkx nofun]
            exact ⟨_, _, _, _, rfl⟩
      · cases r with
        | leaf => rw [asg2InsertWalk_right_leaf l w v hkx]; exact ⟨_, _, _, _, rfl⟩
        | node e b c d =>
            rw [asg2InsertWalk_right_node l (BT.node e b c d) w v hkx nofun]
            exact ⟨_, _, _, _, rfl⟩

theorem leftSpine_insertWalk_of_not_lt {K V : Type} [LinearOrder K] (t : BT K V)
    (k : K) (v : V) {fkv : K × V} (hf : leftmostPair? t = some fkv)
    (h : ¬ k < fkv.1) :
    leftSpine (asg2InsertWalk t k v).1 = leftSpine t := by
  induction t with
  | leaf => simp [leftmostPair?] at hf
  | node l x w r ihl ihr =>
      by_cases hkx : k < x
      · cases l with
        | leaf =>
            have : fkv = (x, w) := by
              simp only [leftmostPair?] at hf
              injection hf with hf
              exact hf.symm
            rw [this] at h
            exact absurd hkx h
        | node e b c d =>
            rw [asg2InsertWalk_left_node (BT.node e b c d) r w v hkx nofun]
            have hfl : leftmostPair? (BT.node e b c d) = some fkv := by
              simpa [leftmostPair?] using hf
            obtain ⟨l2, x2, w2, r2, heq⟩ := insertWalk_node_shape (BT.node e b c d) k v
            rw [heq]
            show false :: leftSpine (BT.node l2 x2 w2 r2) =
              false :: leftSpine (BT.node e b c d)
            rw [← heq, ihl hfl]
      · cases r with
        | leaf =>
            rw [asg2InsertWalk_right_leaf l w v hkx]
            cases l <;> rfl
        | node e b c d =>
            rw [asg2InsertWalk_right_node l (BT.node e b c d) w v hkx nofun]
            cases l <;> rfl

theorem leftSpine_insertWalk_of_lt {K V : Type} [LinearOrder K] (t : BT K V)
    (k : K) (v : V) (hb : isBSTB t = true) {fkv : K × V}
    (hf : leftmostPair? t = some fkv) (h : k < fkv.1) :
    leftSpine (asg2InsertWalk t k v).1 = (asg2InsertWalk t k v).2 := by
  induction t with
  | leaf => simp [leftmostPair?] at hf
  | node l x w r ihl ihr =>
      have hxmem : x ∈ (BT.node l x w r).keys := by simp [keys_node]
      have hkx : k < x := lt_of_lt_of_le h (leftmostPair?_key_le _ hb hf x hxmem)
      obtain ⟨hbl0, hbr0, hbl, hbr⟩ := isBSTB_node_iff.mp hb
      cases l with
      | leaf =>
          rw [asg2InsertWalk_left_leaf r w v hkx]
          rfl
      | node e b c d =>
          rw [asg2InsertWalk_left_node (BT.node e b c d) r w v hkx nofun]
          have hfl : leftmostPair? (BT.node e b c d) = some fkv := by
            simpa [leftmostPair?] using hf
          obtain ⟨l2, x2, w2, r2, heq⟩ := insertWalk_node_shape (BT.node e b c d) k v
          show leftSpine (BT.node (asg2InsertWalk (BT.node e b c d) k v).1 x w r) =
            false :: (asg2InsertWalk (BT.node e b c d) k v).2
          rw [heq]
          show false :: leftSpine (BT.node l2 x2 w2 r2) = _
          rw [← heq, ihl hbl hfl]

theorem rightSpine_insertWalk_of_not_lt {K V : Type} [LinearOrder K] (t : BT K V)
    (k : K) (v : V) {lkv : K × V} (hf : rightmostPair? t = some lkv)
    (hn : findNodePos t k = none) (h : ¬ lkv.1 < k) :
    rightSpine (asg2InsertWalk t k v).1 = rightSpine t := by
  induction t with
  | leaf => simp [rightmostPair?] at hf
  | node l x w r ihl ihr =>
      by_cases hkx : k < x
      · cases l with
        | leaf =>
            rw [asg2InsertWalk_left_leaf r w v hkx]
            cases r <;> rfl
        | node e b c d =>
            rw [asg2InsertWalk_left_node (BT.node e b c d) r w v hkx nofun]
            cases r <;> rfl
      · have hxk : x < k := by
          rcases lt_trichotomy k x with h1 | h1 | h1
          · exact absurd h1 hkx
          · exfalso
            rw [findNodePos_node_found l r w ⟨by rw [h1]; exact lt_irrefl x, by rw [h1]; exact lt_irrefl x⟩] at hn
            exact Option.noConfusion hn
          · exact h1
        cases r with
        | leaf =>
            have : lkv = (x, w) := by
              simp only [rightmostPair?] at hf
              injection hf with hf
              exact hf.symm
            rw [this] at h
            exact absurd hxk h
        | node e b c d =>
            rw [asg2InsertWalk_right_node l (BT.node e b c d) w v hkx nofun]
            have hfr : rightmostPair? (BT.node e b c d) = some lkv := by
              simpa [rightmostPair?] using hf
            have hrn : findNodePos (BT.node e b c d) k = none := by
              rw [findNodePos_node_right l _ w hxk] at hn
              exact Option.map_eq_none'.mp hn
            obtain ⟨l2, x2, w2, r2, heq⟩ := insertWalk_node_shape (BT.node e b c d) k v
            rw [heq]
            show true :: rightSpine (BT.node l2 x2 w2 r2) =
              true :: rightSpine (BT.node e b c d)
            rw [← heq, ihr hfr hrn]

theorem rightSpine_insertWalk_of_lt {K V : Type} [LinearOrder K] (t : BT K V)
    (k : K) (v : V) (hb : isBSTB t = true) {lkv : K × V}
    (hf : rightmostPair? t = some lkv) (h : lkv.1 < k) :
    rightSpine (asg2InsertWalk t k v).1 = (asg2InsertWalk t k v).2 := by
  induction t with
  | leaf => simp [rightmostPair?] at hf
  | node l x w r ihl ihr =>
      have hxmem : x ∈ (BT.node l x w r).keys := by simp [keys_node]
      have hxk : x < k := lt_of_le_of_lt (rightmostPair?_key_ge _ hb hf x hxmem) h
      have hkx : ¬ k < x := lt_asymm hxk
      obtain ⟨hbl0, hbr0, hbl, hbr⟩ := isBSTB_node_iff.mp hb
      cases r with
      | leaf =>
          rw [asg2InsertWalk_right_leaf l w v hkx]
          rfl
      | node e b c d =>
          rw [asg2InsertWalk_right_node l (BT.node e b c d) w v hkx nofun]
          have hfr : rightmostPair? (BT.node e b c d) = some lkv := by
            simpa [rightmostPair?] using hf
          obtain ⟨l2, x2, w2, r2, heq⟩ := insertWalk_node_shape (BT.node e b c d) k v
          show rightSpine (BT.node l x w (asg2InsertWalk (BT.node e b c d) k v).1) =
            true :: (asg2InsertWalk (BT.node e b c d) k v).2
          rw [heq]
          show true :: rightSpine (BT.node l2 x2 w2 r2) = _
          rw [← heq, ihr hbr hfr]

/-! ## Preservation of the asg2 state invariant -/

theorem wfState_empty {K V : Type} [LinearOrder K] : wfState (asg2Empty K V) :=
  ⟨rfl, rfl, rfl, rfl⟩

theorem wfState_clear {K V : Type} [LinearOrder K] (s : Asg2Tree K V) :
    wfState (asg2Clear s) := ⟨rfl, rfl, rfl, rfl⟩

theorem asg2Insert_fresh_fields {K V : Type} [LinearOrder K] (s : Asg2Tree K V)
    (k : K) (v : V) (a : BT K V) (b : K) (c : V) (d : BT K V)
    (hroot : s.root = .node a b c d) (hf : findNodePos s.root k = none) :
    (asg2Insert s k v).1.root = (asg2InsertWalk (.node a b c d) k v).1 ∧
    (asg2Insert s k v).1.node_count = s.node_count + 1 ∧
    (asg2Insert s k v).1.first_node =
      (match s.first_node.bind (keyAt (.node a b c d)) with
       | some fk => if k < fk then some ((asg2InsertWalk (.node a b c d) k v).2)
                    else s.first_node
       | none => s.first_node) ∧
    (asg2Insert s k v).1.last_node =
      (match s.last_node.bind (keyAt (.node a b c d)) with
       | some lk => if lk < k then some ((asg2InsertWalk (.node a b c d) k v).2)
                    else s.last_node
       | none => s.last_node) := by
  have hf2 : findNodePos (BT.node a b c d) k = none := by rw [← hroot]; exact hf
  simp only [asg2Insert, hroot, hf2]
  exact ⟨trivial, trivial, trivial, trivial⟩

theorem wfState_insert {K V : Type} [LinearOrder K] (s : Asg2Tree K V) (k : K)
    (v : V) (hw : wfState s) : wfState (asg2Insert s k v).1 := by
  obtain ⟨hb, hc, hfst, hlst⟩ := hw
  cases hf : findNodePos s.root k with
  | some p =>
      simp only [asg2Insert, hf]
      refine ⟨?_, ?_, ?_, ?_⟩
      · show isBSTB (setValue s.root p v) = true
        rw [isBSTB_setValue]; exact hb
      · show s.node_count = (setValue s.root p v).size
        rw [size_setValue]; exact hc
      · show s.first_node = leftmostPosOpt (setValue s.root p v)
        rw [leftmostPosOpt_setValue]; exact hfst
      · show s.last_node = rightmostPosOpt (setValue s.root p v)
        rw [rightmostPosOpt_setValue]; exact hlst
  | none =>
      cases hroot : s.root with
      | leaf =>
          rw [hroot] at hc
          simp only [asg2Insert, hf, hroot]
          refine ⟨?_, ?_, rfl, rfl⟩
          · show isBSTB (.node .leaf k v .leaf) = true
            simp [isBSTB, BT.keys, BT.pairs]
          · show s.node_count + 1 = (BT.node .leaf k v .leaf).size
            simp [BT.size] at hc ⊢
            omega
      | node a b c d =>
          obtain ⟨hr1, hr2, hr3, hr4⟩ :=
            asg2Insert_fresh_fields s k v a b c d hroot hf
          rw [hroot] at hf hb hc hfst hlst
          obtain ⟨fkv, heqf⟩ := leftmostPair?_isSome a b c d
          obtain ⟨lkv, heql⟩ := rightmostPair?_isSome a b c d
          have hkeyf : keyAt (BT.node a b c d) (leftSpine (BT.node a b c d)) = some fkv.1 := by
            simp [keyAt, pairAt_leftSpine, heqf]
          have hkeyl : keyAt (BT.node a b c d) (rightSpine (BT.node a b c d)) = some lkv.1 := by
            simp [keyAt, pairAt_rightSpine, heql]
          have hfst2 : s.first_node = some (leftSpine (BT.node a b c d)) := by
            rw [hfst]; rfl
          have hlst2 : s.last_node = some (rightSpine (BT.node a b c d)) := by
            rw [hlst]; rfl
          refine ⟨?_, ?_, ?_, ?_⟩
          · rw [hr1]
            exact isBSTB_insertWalk (BT.node a b c d) k v hb hf
          · rw [hr2, hr1, size_insertWalk, hc]
          · rw [hr3, hr1, hfst2, Option.some_bind, hkeyf]
            show (if k < fkv.1 then some ((asg2InsertWalk (BT.node a b c d) k v).2)
                  else some (leftSpine (BT.node a b c d))) =
              leftmostPosOpt (asg2InsertWalk (BT.node a b c d) k v).1
            obtain ⟨l2, x2, w2, r2, heq2⟩ := insertWalk_node_shape (BT.node a b c d) k v
            rw [heq2]
            show _ = some (leftSpine (BT.node l2 x2 w2 r2))
            rw [← heq2]
            by_cases hlt : k < fkv.1
            · rw [if_pos hlt, leftSpine_insertWalk_of_lt _ k v hb heqf hlt]
            · rw [if_neg hlt, leftSpine_insertWalk_of_not_lt _ k v heqf hlt]
          · rw [hr4, hr1, hlst2, Option.some_bind, hkeyl]
            show (if lkv.1 < k then some ((asg2InsertWalk (BT.node a b c d) k v).2)
                  else some (rightSpine (BT.node a b c d))) =
              rightmostPosOpt (asg2InsertWalk (BT.node a b c d) k v).1
            obtain ⟨l2, x2, w2, r2, heq2⟩ := insertWalk_node_shape (BT.node a b c d) k v
            rw [heq2]
            show _ = some (rightSpine (BT.node l2 x2 w2 r2))
            rw [← heq2]
            by_cases hlt : lkv.1 < k
            · rw [if_pos hlt, rightSpine_insertWalk_of_lt _ k v hb heql hlt]
            · rw [if_neg hlt, rightSpine_insertWalk_of_not_lt _ k v heql hf hlt]

theorem findNodePos_of_mem {K V : Type} [LinearOrder K] (t : BT K V) (k : K)
    (hb : isBSTB t = true) (hm : k ∈ t.keys) : ∃ p, findNodePos t k = some p := by
  induction t with
  | leaf => simp [BT.keys, BT.pairs] at hm
  | node l x w r ihl ihr =>
      obtain ⟨hl, hr, hbl, hbr⟩ := isBSTB_node_iff.mp hb
      rw [keys_node] at hm
      simp only [List.mem_append, List.mem_cons] at hm
      by_cases heq : ¬ x < k ∧ ¬ k < x
      · exact ⟨[], findNodePos_node_found l r w heq⟩
      · rcases hm with hm | rfl | hm
        · have hkx : k < x := hl k hm
          obtain ⟨p, hp⟩ := ihl hbl hm
          refine ⟨false :: p, ?_⟩
          rw [findNodePos_node_left l r w hkx, hp]
          rfl
        · exact absurd ⟨lt_irrefl k, lt_irrefl k⟩ heq
        · have hxk : x < k := hr k hm
          obtain ⟨p, hp⟩ := ihr hbr hm
          refine ⟨true :: p, ?_⟩
          rw [findNodePos_node_right l r w hxk, hp]
          rfl

/-- C4: the search-tree invariant (left keys smaller, right keys larger,
keys unique) is preserved by every operation.  It fails for asg1: the first
insert of any sequence dereferences the null root, and on the well-formed
tree `exT12` (which already contains the key 2) `insert(2, "x")` attaches a
second node with key 2, producing `exT12Dup`, whose key list is
`[1, 2, 2]` and which violates the invariant.  It holds for asg2: `insert`
and `clear` preserve the full state invariant (search-tree order, cached
count and cached first/last pointers) from any well-formed state. -/
theorem claim_C4_bst_invariant :
    (asg1Insert .leaf 1 "a" = none) ∧
    (isBSTB exT12 = true ∧ asg1Insert exT12 2 "x" = some (exT12Dup, true) ∧
      isBSTB exT12Dup = false ∧ exT12Dup.keys = [1, 2, 2]) ∧
    (∀ (K V : Type) [LinearOrder K] (s : Asg2Tree K V) (k : K) (v : V),
      wfState s → wfState (asg2Insert s k v).1) ∧
    (∀ (K V : Type) [LinearOrder K] (s : Asg2Tree K V), wfState (asg2Clear s)) := by
  refine ⟨by decide, ⟨by decide, by decide, by decide, by decide⟩, ?_, ?_⟩
  · intro K V _ s k v hw
    exact wfState_insert s k v hw
  · intro K V _ s
    exact wfState_clear s

/-- C4 witness: the asg2 preservation conjuncts applied to the concrete
well-formed state `exS12` with the fresh key 3. -/
theorem claim_C4_witness :
    wfState (asg2Insert exS12 3 "c").1 ∧ wfState (asg2Clear exS12) := by
  constructor
  · exact claim_C4_bst_invariant.2.2.1 Int String exS12 3 "c"
      ⟨by decide, by decide, by decide, by decide⟩
  · exact claim_C4_bst_invariant.2.2.2 Int String exS12

/-- C5: re-inserting an existing key.  asg1 violates it: `exT12` is a
well-formed tree containing the key 2, yet `insert(2, "x")` reports a new
node (`true`) and grows the tree by one node.  asg2 satisfies it: from a
well-formed state containing `k`, `insert(k, v')` reports `false`, keeps
`node_count`, makes `find(k)` yield `v'`, and leaves the value found for
every other key unchanged. -/
theorem claim_C5_reinsert :
    (isBSTB exT12 = true ∧ (2 : Int) ∈ exT12.keys ∧
      asg1Insert exT12 2 "x" = some (exT12Dup, true) ∧
      exT12Dup.size = exT12.size + 1) ∧
    (∀ (K V : Type) [LinearOrder K] (s : Asg2Tree K V) (k : K) (v' : V),
      wfState s → k ∈ s.root.keys →
        (asg2Insert s k v').2.2 = false ∧
        (asg2Insert s k v').1.node_count = s.node_count ∧
        asg2FindVal (asg2Insert s k v').1 k = some v' ∧
        ∀ k2, k2 ≠ k → asg2FindVal (asg2Insert s k v').1 k2 = asg2FindVal s k2) := by
  refine ⟨⟨by decide, by decide, by decide, by decide⟩, ?_⟩
  intro K V _ s k v' hw hk
  obtain ⟨p, hp⟩ := findNodePos_of_mem s.root k hw.1 hk
  refine ⟨?_, ?_, asg2_find_after_insert s k v', ?_⟩
  · simp only [asg2Insert, hp]
  · simp only [asg2Insert, hp]
  · intro k2 hne
    simp only [asg2Insert, hp, asg2FindVal, findNodePos_setValue]
    cases hf2 : findNodePos s.root k2 with
    | none => rfl
    | some q =>
        have hqp : q ≠ p := by
          intro hqp
          obtain ⟨w1, hw1⟩ := findNodePos_valid s.root k p hp
          obtain ⟨w2, hw2⟩ := findNodePos_valid s.root k2 q hf2
          rw [hqp, hw1] at hw2
          injection hw2 with hw2
          exact hne (congrArg Prod.fst hw2).symm
        simp [pairAt_setValue_ne s.root p q v' hqp]

/-- C5 witness: the asg2 conjunct applied to the concrete state `exS12`,
which contains the key 2. -/
theorem claim_C5_witness :
    (asg2Insert exS12 2 "z").2.2 = false ∧
    (asg2Insert exS12 2 "z").1.node_count = exS12.node_count ∧
    asg2FindVal (asg2Insert exS12 2 "z").1 2 = some "z" ∧
    ∀ k2, k2 ≠ 2 → asg2FindVal (asg2Insert exS12 2 "z").1 k2 = asg2FindVal exS12 k2 :=
  claim_C5_reinsert.2 Int String exS12 2 "z"
    ⟨by decide, by decide, by decide, by decide⟩ (by decide)

/-- C8: `front()`/`back()`.  On an empty container both versions signal a
distinguishable empty condition (asg1 throws, asg2 fails its assert; both
modelled as `none`).  On any non-empty well-formed tree, asg1's `front`
returns the value of the leftmost node and `back` of the rightmost, and
those nodes' keys bound every stored key; the asg2 versions return the
cached first/last node's pair with the same bounds. -/
theorem claim_C8_front_back :
    (asg1Front .leaf = none ∧ asg1Back .leaf = none) ∧
    (∀ t : BT Int String, isBSTB t = true → t ≠ .leaf →
      ∃ fkv lkv, leftmostPair? t = some fkv ∧ rightmostPair? t = some lkv ∧
        asg1Front t = some fkv.2 ∧ asg1Back t = some lkv.2 ∧
        ∀ a ∈ t.keys, fkv.1 ≤ a ∧ a ≤ lkv.1) ∧
    (∀ (K V : Type) [LinearOrder K] (s : Asg2Tree K V), wfState s →
      s.root = .leaf → asg2Front s = none ∧ asg2Back s = none) ∧
    (∀ (K V : Type) [LinearOrder K] (s : Asg2Tree K V), wfState s →
      s.root ≠ .leaf →
      ∃ fkv lkv, asg2Front s = some fkv ∧ asg2Back s = some lkv ∧
        ∀ a ∈ s.root.keys, fkv.1 ≤ a ∧ a ≤ lkv.1) := by
  refine ⟨⟨rfl, rfl⟩, ?_, ?_, ?_⟩
  · intro t hb hne
    cases t with
    | leaf => exact absurd rfl hne
    | node l x w r =>
        obtain ⟨fkv, heqf⟩ := leftmostPair?_isSome l x w r
        obtain ⟨lkv, heql⟩ := rightmostPair?_isSome l x w r
        refine ⟨fkv, lkv, heqf, heql, ?_, ?_, ?_⟩
        · show (match pairAt (BT.node l x w r) (leftSpine (BT.node l x w r)) with
            | some kv => some kv.2
            | none => none) = some fkv.2
          rw [pairAt_leftSpine, heqf]
        · show (match pairAt (BT.node l x w r) (rightSpine (BT.node l x w r)) with
            | some kv => some kv.2
            | none => none) = some lkv.2
          rw [pairAt_rightSpine, heql]
        · intro a ha
          exact ⟨leftmostPair?_key_le _ hb heqf a ha, rightmostPair?_key_ge _ hb heql a ha⟩
  · intro K V _ s hw hroot
    obtain ⟨hb, hc, hfst, hlst⟩ := hw
    rw [hroot] at hfst hlst
    constructor
    · show s.first_node.bind (pairAt s.root) = none
      rw [hfst]
      rfl
    · show s.last_node.bind (pairAt s.root) = none
      rw [hlst]
      rfl
  · intro K V _ s hw hne
    obtain ⟨hb, hc, hfst, hlst⟩ := hw
    cases hroot : s.root with
    | leaf => exact absurd hroot hne
    | node l x w r =>
        rw [hroot] at hfst hlst hb
        obtain ⟨fkv, heqf⟩ := leftmostPair?_isSome l x w r
        obtain ⟨lkv, heql⟩ := rightmostPair?_isSome l x w r
        refine ⟨fkv, lkv, ?_, ?_, ?_⟩
        · show s.first_node.bind (pairAt s.root) = some fkv
          rw [hfst, hroot]
          show pairAt (BT.node l x w r) (leftSpine (BT.node l x w r)) = some fkv
          rw [pairAt_leftSpine, heqf]
        · show s.last_node.bind (pairAt s.root) = some lkv
          rw [hlst, hroot]
          show pairAt (BT.node l x w r) (rightSpine (BT.node l x w r)) = some lkv
          rw [pairAt_rightSpine, heql]
        · intro a ha
          exact ⟨leftmostPair?_key_le _ hb heqf a ha, rightmostPair?_key_ge _ hb heql a ha⟩

/-- C8 witness: the non-empty conjuncts applied to `exT12` (asg1) and
`exS12` (asg2), and the asg2 empty case at the freshly cleared state. -/
theorem claim_C8_witness :
    (∃ fkv lkv, leftmostPair? exT12 = some fkv ∧ rightmostPair? exT12 = some lkv ∧
      asg1Front exT12 = some fkv.2 ∧ asg1Back exT12 = some lkv.2 ∧
      ∀ a ∈ exT12.keys, fkv.1 ≤ a ∧ a ≤ lkv.1) ∧
    (∃ fkv lkv, asg2Front exS12 = some fkv ∧ asg2Back exS12 = some lkv ∧
      ∀ a ∈ exS12.root.keys, fkv.1 ≤ a ∧ a ≤ lkv.1) ∧
    (asg2Front (asg2Empty Int String) = none ∧ asg2Back (asg2Empty Int String) = none) := by
  refine ⟨?_, ?_, ?_⟩
  · exact claim_C8_front_back.2.1 exT12 (by decide) (by decide)
  · exact claim_C8_front_back.2.2.2 Int String exS12
      ⟨by decide, by decide, by decide, by decide⟩ (by decide)
  · exact claim_C8_front_back.2.2.1 Int String (asg2Empty Int String)
      ⟨by decide, by decide, by decide, by decide⟩ (by decide)

/-! ## The undirected adjacency-list degree invariant (C9) -/

theorem getD_set_self {A : Type} (l : List A) (u : Nat) (x d : A)
    (h : u < l.length) : (l.set u x).getD u d = x := by
  induction l generalizing u with
  | nil => simp at h
  | cons a rest ih =>
      cases u with
      | zero => rfl
      | succ u => exact ih u (by simpa using h)

theorem getD_set_ne {A : Type} (l : List A) (u w : Nat) (x d : A)
    (h : w ≠ u) : (l.set u x).getD w d = l.getD w d := by
  induction l generalizing u w with
  | nil => rfl
  | cons a rest ih =>
      cases u with
      | zero =>
          cases w with
          | zero => exact absurd rfl h
          | succ w => rfl
      | succ u =>
          cases w with
          | zero => rfl
          | succ w => exact ih u w (fun hh => h (by rw [hh]))

theorem getD_replicate_lt {A : Type} (n i : Nat) (a d : A) (h : i < n) :
    (List.replicate n a).getD i d = a := by
  induction n generalizing i with
  | zero => simp at h
  | succ n ih =>
      cases i with
      | zero => rfl
      | succ i => exact ih i (by omega)

theorem getD_append_lt {A : Type} (l l' : List A) (w : Nat) (d : A)
    (h : w < l.length) : (l ++ l').getD w d = l.getD w d :=
  List.getD_append l l' d w h

theorem incidentCount_append {v : Nat} (es : List StoredEdgeRec) (e : StoredEdgeRec) :
    incidentCount v (es ++ [e]) =
      incidentCount v es + (if e.src = v ∨ e.tar = v then 1 else 0) := by
  simp only [incidentCount, List.filter_append, List.length_append]
  congr 1
  by_cases h : e.src = v ∨ e.tar = v
  · rw [if_pos h]
    have : (e.src == v || e.tar == v) = true := by
      rcases h with h | h <;> simp [h]
    simp [List.filter, this]
  · rw [if_neg h]
    push_neg at h
    have : (e.src == v || e.tar == v) = false := by
      simp [h.1, h.2]
    simp [List.filter, this]

theorem addEdgeUndirected_ok_elim {u v : Nat} {g g' : AdjList} {e : EdgeDesc}
    (hok : addEdgeUndirected u v g = .ok g' e) :
    u ≠ v ∧ u < numVerts g ∧ v < numVerts g ∧
      g' = pushOut (pushOut { g with eList := g.eList ++ [⟨u, v⟩] } u
              ⟨v, (g.eList ++ [(⟨u, v⟩ : StoredEdgeRec)]).length - 1⟩) v
              ⟨v, (g.eList ++ [(⟨u, v⟩ : StoredEdgeRec)]).length - 1⟩ := by
  unfold addEdgeUndirected at hok
  split at hok
  · exact absurd hok (by simp)
  · split at hok
    · exact absurd hok (by simp)
    · split at hok
      · exact absurd hok (by simp)
      · split at hok
        · rename_i h1 h2 h3 h4
          injection hok with hok1 hok2
          exact ⟨not_not.mp h2, h4.1, h4.2, hok1.symm⟩
        · exact absurd hok (by simp)

/-- Main step: a successful undirected `addEdge` keeps the degree/incidence
correspondence. -/
theorem reachU_invariant {g : AdjList} (hr : ReachableU g) :
    (∀ e ∈ g.eList, e.src < numVerts g ∧ e.tar < numVerts g) ∧
      (∀ w, w < numVerts g → outDegreeUndirected w g = incidentCount w g.eList) := by
  induction hr with
  | base n =>
      constructor
      · intro e he
        simp at he
      · intro w hw
        simp only [numVerts, List.length_replicate] at hw
        simp only [outDegreeUndirected, incidentCount]
        rw [getD_replicate_lt _ _ _ _ hw]
        rfl
  | addV hr ih =>
      obtain ⟨ihe, ihd⟩ := ih
      rename_i g0
      constructor
      · intro e he
        have := ihe e he
        simp only [addVertexD, numVerts, List.length_append, List.length_cons,
          List.length_nil] at *
        omega
      · intro w hw
        simp only [addVertexD, numVerts, List.length_append, List.length_cons,
          List.length_nil] at hw
        by_cases hwl : w < g0.vList.length
        · have := ihd w hwl
          simp only [outDegreeUndirected, addVertexD] at *
          rw [getD_append_lt _ _ _ _ hwl]
          exact this
        · have hweq : w = g0.vList.length := by omega
          simp only [outDegreeUndirected, addVertexD]
          subst hweq
          have : (g0.vList ++ [(⟨[]⟩ : VertexRec)]).getD g0.vList.length ⟨[]⟩ = ⟨[]⟩ := by
            induction g0.vList with
            | nil => rfl
            | cons a rest ih2 => exact ih2
          rw [this]
          -- no edge touches the fresh vertex
          simp only [incidentCount]
          have hnone : ∀ e ∈ g0.eList, ¬ (e.src == g0.vList.length || e.tar == g0.vList.length) = true := by
            intro e he
            have := ihe e he
            simp only [numVerts] at this
            simp only [Bool.or_eq_true, beq_iff_eq]
            omega
          rw [List.filter_eq_nil_iff.mpr hnone]
          rfl
  | addE hr hok ih =>
      obtain ⟨ihe, ihd⟩ := ih
      rename_i g0 g1 u v e0
      obtain ⟨hne, hu, hv, hg'⟩ := addEdgeUndirected_ok_elim hok
      subst hg'
      constructor
      · intro e he
        simp only [pushOut, numVerts, List.length_set] at *
        simp only [List.mem_append, List.mem_singleton] at he
        rcases he with he | rfl
        · exact ihe e he
        · exact ⟨hu, hv⟩
      · intro w hw
        simp only [pushOut, numVerts, List.length_set] at hw
        have hout : outDegreeUndirected w
            (pushOut (pushOut { g0 with eList := g0.eList ++ [⟨u, v⟩] } u
              ⟨v, (g0.eList ++ [(⟨u, v⟩ : StoredEdgeRec)]).length - 1⟩) v
              ⟨v, (g0.eList ++ [(⟨u, v⟩ : StoredEdgeRec)]).length - 1⟩) =
            outDegreeUndirected w g0 + (if u = w ∨ v = w then 1 else 0) := by
          simp only [outDegreeUndirected, pushOut]
          by_cases hwv : w = v
          · subst hwv
            rw [getD_set_self _ _ _ _ (by simpa [pushOut] using hv)]
            rw [if_pos (Or.inr rfl)]
            rw [getD_set_ne _ _ _ _ _ (fun hh => hne hh.symm)]
            simp
          · rw [getD_set_ne _ _ _ _ _ hwv]
            by_cases hwu : w = u
            · subst hwu
              rw [getD_set_self _ _ _ _ (by simpa using hu)]
              rw [if_pos (Or.inl rfl)]
              simp
            · rw [getD_set_ne _ _ _ _ _ hwu]
              rw [if_neg (by tauto)]
              simp
        rw [hout, ihd w hw]
        show _ = incidentCount w (g0.eList ++ [⟨u, v⟩])
        rw [incidentCount_append]

/-- C9 amended: for the Undirected variant, on every container state
reachable through the public mutators, `outDegree(v)` equals the number of
stored edges incident to `v`; for the Directed and Bidirectional variants,
`outDegree` and `inDegree` are literally the incident-edge count, not the
leaving/entering counts. -/
theorem claim_C9_amended_degrees :
    (∀ g : AdjList, ReachableU g → ∀ w, w < numVerts g →
      outDegreeUndirected w g = incidentCount w g.eList) ∧
    (∀ (v : Nat) (g : AdjList),
      outDegreeDirected v g = incidentCount v g.eList ∧
      inDegreeDirected v g = incidentCount v g.eList) := by
  constructor
  · intro g hr w hw
    exact (reachU_invariant hr).2 w hw
  · intro v g
    exact ⟨rfl, rfl⟩

/-- C9 witness: the amended statement at the concrete reachable undirected
graph `exGU` (two vertices, one edge), at both vertices. -/
theorem claim_C9_witness :
    outDegreeUndirected 0 exGU = incidentCount 0 exGU.eList ∧
    outDegreeUndirected 1 exGU = incidentCount 1 exGU.eList := by
  have hr : ReachableU exGU :=
    @ReachableU.addE ⟨List.replicate 2 ⟨[]⟩, []⟩ exGU 0 1 ⟨0, 1, 0⟩
      (ReachableU.base 2) (by decide)
  exact ⟨claim_C9_amended_degrees.1 exGU hr 0 (by decide),
    claim_C9_amended_degrees.1 exGU hr 1 (by decide)⟩

/-! ## The iterator chain of asg2 enumerates the tree in-order (C6) -/

theorem inorderPos_eq_nil_iff {K V : Type} (t : BT K V) :
    inorderPos t = [] ↔ t = .leaf := by
  cases t with
  | leaf => simp [inorderPos]
  | node l x w r => simp [inorderPos]

theorem length_inorderPos {K V : Type} (t : BT K V) :
    (inorderPos t).length = t.size := by
  induction t with
  | leaf => rfl
  | node l x w r ihl ihr => simp [inorderPos, BT.size, ihl, ihr]; omega

theorem upNext_append_false (xs : List Bool) :
    upNext (xs ++ [false]) =
      some (match upNext xs with | some r => false :: r | none => []) := by
  induction xs with
  | nil => rfl
  | cons d rest ih =>
      cases d with
      | false => simp [upNext, List.reverse_append]
      | true => simpa [upNext] using ih

theorem upNext_append_true (xs : List Bool) :
    upNext (xs ++ [true]) =
      (match upNext xs with | some r => some (true :: r) | none => none) := by
  induction xs with
  | nil => rfl
  | cons d rest ih =>
      cases d with
      | false => simp [upNext, List.reverse_append]
      | true => simpa [upNext] using ih

theorem mem_inorderPos_node {K V : Type} (t : BT K V) (p : List Bool)
    (h : p ∈ inorderPos t) :
    ∃ l1 x1 w1 r1, subtreeAt t p = some (.node l1 x1 w1 r1) := by
  induction t generalizing p with
  | leaf => simp [inorderPos] at h
  | node l x w r ihl ihr =>
      simp only [inorderPos, List.mem_append, List.mem_cons, List.mem_map] at h
      rcases h with ⟨q, hq, rfl⟩ | rfl | ⟨q, hq, rfl⟩
      · exact ihl q hq
      · exact ⟨l, x, w, r, rfl⟩
      · exact ihr q hq

theorem head?_inorderPos {K V : Type} (t : BT K V) (h : t ≠ .leaf) :
    (inorderPos t).head? = some (leftSpine t) := by
  induction t with
  | leaf => exact absurd rfl h
  | node l x w r ihl ihr =>
      cases l with
      | leaf => simp [inorderPos, leftSpine]
      | node a b c d =>
          have hl := ihl nofun
          have hne : inorderPos (BT.node a b c d) ≠ [] := by
            rw [Ne, inorderPos_eq_nil_iff]
            exact nofun
          obtain ⟨y, ys, hys⟩ := List.exists_cons_of_ne_nil hne
          rw [hys] at hl
          simp only [List.head?_cons] at hl
          injection hl with hl
          rw [show inorderPos (BT.node (BT.node a b c d) x w r) =
              (inorderPos (BT.node a b c d)).map (fun p => false :: p) ++
                [] :: (inorderPos r).map (fun p => true :: p) from rfl, hys]
          simp only [List.map_cons, List.cons_append, List.head?_cons]
          rw [hl]
          rfl

theorem nodup_inorderPos {K V : Type} (t : BT K V) : (inorderPos t).Nodup := by
  induction t with
  | leaf => simp [inorderPos]
  | node l x w r ihl ihr =>
      simp only [inorderPos]
      rw [List.nodup_append]
      refine ⟨?_, ?_, ?_⟩
      · exact ihl.map (fun a b h => by injection h)
      · rw [List.nodup_cons]
        refine ⟨?_, ihr.map (fun a b h => by injection h)⟩
        simp only [List.mem_map]
        rintro ⟨q, hq, h⟩
        exact List.noConfusion h
      · intro p hp hmem
        simp only [List.mem_map] at hp
        obtain ⟨q, hq, rfl⟩ := hp
        rcases List.mem_cons.mp hmem with h1 | h1
        · exact List.noConfusion h1
        · obtain ⟨q2, hq2, h2⟩ := List.mem_map.mp h1
          injection h2 with h2a h2b
          exact Bool.noConfusion h2a

theorem nextAfter_map_cons (b : Bool) (L : List (List Bool)) (q : List Bool) :
    nextAfter (L.map (fun p => b :: p)) (b :: q) =
      (nextAfter L q).map (fun p => b :: p) := by
  induction L with
  | nil => rfl
  | cons a rest ih =>
      by_cases h : a = q
      · subst h
        simp [nextAfter, List.head?_map]
      · have h2 : ¬ (b :: a = b :: q) := fun hh => h (by injection hh)
        simp only [List.map_cons, nextAfter, if_neg h2, if_neg h]
        exact ih

theorem nextAfter_append_of_mem {A : Type} [DecidableEq A] (B : List A)
    (L : List A) (p : A) (h : p ∈ L) :
    nextAfter (L ++ B) p =
      (match nextAfter L p with | some r => some r | none => B.head?) := by
  induction L with
  | nil => simp at h
  | cons a rest ih =>
      by_cases hap : a = p
      · subst hap
        simp only [List.cons_append, nextAfter, if_pos rfl]
        cases rest with
        | nil => rfl
        | cons c cs => rfl
      · have hm : p ∈ rest := by
          rcases List.mem_cons.mp h with h1 | h1
          · exact absurd h1.symm hap
          · exact h1
        simp only [List.cons_append, nextAfter, if_neg hap]
        exact ih hm

theorem nextAfter_append_of_not_mem {A : Type} [DecidableEq A] (B : List A)
    (L : List A) (p : A) (h : p ∉ L) :
    nextAfter (L ++ B) p = nextAfter B p := by
  induction L with
  | nil => rfl
  | cons a rest ih =>
      have hap : ¬ a = p := fun hh => h (by rw [hh]; exact List.mem_cons_self _ _)
      simp only [List.cons_append, nextAfter, if_neg hap]
      exact ih (fun hm => h (List.mem_cons_of_mem _ hm))

theorem asg2NextPos_right {K V : Type} (t : BT K V) (p : List Bool)
    {l1 : BT K V} {x1 : K} {w1 : V} {a2 : BT K V} {b2 : K} {c2 : V} {d2 : BT K V}
    (h : subtreeAt t p = some (.node l1 x1 w1 (.node a2 b2 c2 d2))) :
    asg2NextPos t p = some (p ++ true :: leftSpine (.node a2 b2 c2 d2)) := by
  unfold asg2NextPos
  rw [h]

theorem asg2NextPos_noright {K V : Type} (t : BT K V) (p : List Bool)
    {l1 : BT K V} {x1 : K} {w1 : V}
    (h : subtreeAt t p = some (.node l1 x1 w1 .leaf)) :
    asg2NextPos t p = upNext p.reverse := by
  unfold asg2NextPos
  rw [h]

theorem subtreeAt_cons_false {K V : Type} (l : BT K V) (x : K) (w : V)
    (r : BT K V) (q : List Bool) :
    subtreeAt (.node l x w r) (false :: q) = subtreeAt l q := rfl

theorem subtreeAt_cons_true {K V : Type} (l : BT K V) (x : K) (w : V)
    (r : BT K V) (q : List Bool) :
    subtreeAt (.node l x w r) (true :: q) = subtreeAt r q := rfl

theorem nil_not_mem_map_cons (b : Bool) (L : List (List Bool)) :
    ([] : List Bool) ∉ L.map (fun p => b :: p) := by
  intro h
  obtain ⟨q, hq, h2⟩ := List.mem_map.mp h
  exact List.noConfusion h2

theorem cons_not_mem_map_cons (q : List Bool) (L : List (List Bool)) :
    (true :: q) ∉ L.map (fun p => false :: p) := by
  intro h
  obtain ⟨q2, hq2, h2⟩ := List.mem_map.mp h
  injection h2 with h2a h2b
  exact Bool.noConfusion h2a

theorem asg2NextPos_eq_nextAfter {K V : Type} (t : BT K V) (p : List Bool)
    (h : p ∈ inorderPos t) :
    asg2NextPos t p = nextAfter (inorderPos t) p := by
  induction t generalizing p with
  | leaf => simp [inorderPos] at h
  | node l x w r ihl ihr =>
      have hexp : inorderPos (BT.node l x w r) =
          (inorderPos l).map (fun p => false :: p) ++
            [] :: (inorderPos r).map (fun p => true :: p) := rfl
      simp only [hexp, List.mem_append, List.mem_cons, List.mem_map] at h
      rcases h with ⟨q, hq, rfl⟩ | rfl | ⟨q, hq, rfl⟩
      · -- p = false :: q with q a node position of the left subtree
        obtain ⟨l1, x1, w1, r1, hsub⟩ := mem_inorderPos_node l q hq
        have hsubT : subtreeAt (BT.node l x w r) (false :: q) =
            some (.node l1 x1 w1 r1) := by rw [subtreeAt_cons_false]; exact hsub
        have hmem : (false :: q) ∈ (inorderPos l).map (fun p => false :: p) :=
          List.mem_map.mpr ⟨q, hq, rfl⟩
        rw [hexp, nextAfter_append_of_mem _ _ _ hmem, nextAfter_map_cons, ← ihl q hq]
        cases r1 with
        | node a2 b2 c2 d2 =>
            rw [asg2NextPos_right _ _ hsubT, asg2NextPos_right _ _ hsub]
            rfl
        | leaf =>
            rw [asg2NextPos_noright _ _ hsubT, asg2NextPos_noright _ _ hsub]
            rw [List.reverse_cons, upNext_append_false]
            cases hup : upNext q.reverse with
            | some r2 => rfl
            | none => rfl
      · -- p = [], the root position
        have hsubT : subtreeAt (BT.node l x w r) [] = some (.node l x w r) := rfl
        have hnotmem := nil_not_mem_map_cons false (inorderPos l)
        rw [hexp, nextAfter_append_of_not_mem _ _ _ hnotmem]
        cases r with
        | node a2 b2 c2 d2 =>
            rw [asg2NextPos_right _ _ hsubT]
            show some (true :: leftSpine (BT.node a2 b2 c2 d2)) =
              ((inorderPos (BT.node a2 b2 c2 d2)).map (fun p => true :: p)).head?
            rw [List.head?_map, head?_inorderPos (BT.node a2 b2 c2 d2) (fun hh => BT.noConfusion hh)]
            rfl
        | leaf =>
            rw [asg2NextPos_noright _ _ hsubT]
            rfl
      · -- p = true :: q with q a node position of the right subtree
        obtain ⟨l1, x1, w1, r1, hsub⟩ := mem_inorderPos_node r q hq
        have hsubT : subtreeAt (BT.node l x w r) (true :: q) =
            some (.node l1 x1 w1 r1) := by rw [subtreeAt_cons_true]; exact hsub
        have hnotmem := cons_not_mem_map_cons q (inorderPos l)
        rw [hexp, nextAfter_append_of_not_mem _ _ _ hnotmem]
        have hstep : nextAfter ([] :: (inorderPos r).map (fun p => true :: p))
            (true :: q) = nextAfter ((inorderPos r).map (fun p => true :: p))
            (true :: q) := by
          simp [nextAfter]
        rw [hstep, nextAfter_map_cons, ← ihr q hq]
        cases r1 with
        | node a2 b2 c2 d2 =>
            rw [asg2NextPos_right _ _ hsubT, asg2NextPos_right _ _ hsub]
            rfl
        | leaf =>
            rw [asg2NextPos_noright _ _ hsubT, asg2NextPos_noright _ _ hsub]
            rw [List.reverse_cons, upNext_append_true]
            cases hup : upNext q.reverse with
            | some r2 => rfl
            | none => rfl

theorem posChain_of_decomp {K V : Type} (t : BT K V) :
    ∀ (l2 l1 : List (List Bool)), inorderPos t = l1 ++ l2 →
      asg2PosChain t l2.head? l2.length = l2 := by
  intro l2
  induction l2 with
  | nil => intro l1 h; rfl
  | cons p rest ih =>
      intro l1 h
      have hmem : p ∈ inorderPos t := by rw [h]; simp
      have hnodup := nodup_inorderPos t
      rw [h] at hnodup
      have hnotmem : p ∉ l1 := by
        obtain ⟨h1, h2, hdisj⟩ := List.nodup_append.mp hnodup
        intro hmem1
        exact hdisj hmem1 (List.mem_cons_self _ _)
      have hnext : asg2NextPos t p = rest.head? := by
        rw [asg2NextPos_eq_nextAfter t p hmem, h,
          nextAfter_append_of_not_mem _ _ _ hnotmem]
        simp [nextAfter]
      show p :: asg2PosChain t (asg2NextPos t p) rest.length = p :: rest
      rw [hnext, ih (l1 ++ [p]) (by rw [h]; simp)]

theorem posChain_inorder {K V : Type} (t : BT K V) :
    asg2PosChain t (leftmostPosOpt t) t.size = inorderPos t := by
  cases t with
  | leaf => rfl
  | node l x w r =>
      have h1 : leftmostPosOpt (BT.node l x w r) =
          (inorderPos (BT.node l x w r)).head? := by
        rw [head?_inorderPos (BT.node l x w r) (fun hh => BT.noConfusion hh)]
        rfl
      rw [h1, show (BT.node l x w r).size = (inorderPos (BT.node l x w r)).length from
        (length_inorderPos _).symm]
      exact posChain_of_decomp _ (inorderPos (BT.node l x w r)) [] rfl

theorem filterMap_pairAt_inorderPos {K V : Type} (t : BT K V) :
    (inorderPos t).filterMap (pairAt t) = t.pairs := by
  induction t with
  | leaf => rfl
  | node l x w r ihl ihr =>
      have hexp : inorderPos (BT.node l x w r) =
          (inorderPos l).map (fun p => false :: p) ++
            [] :: (inorderPos r).map (fun p => true :: p) := rfl
      rw [hexp, List.filterMap_append]
      have h2 : ((inorderPos l).map (fun p => false :: p)).filterMap
          (pairAt (BT.node l x w r)) = l.pairs := by
        rw [List.filterMap_map, show (pairAt (BT.node l x w r)) ∘ (fun p => false :: p) =
          pairAt l from funext (fun q => pairAt_node_cons_false l x w r q)]
        exact ihl
      have h3 : (([] : List Bool) :: (inorderPos r).map (fun p => true :: p)).filterMap
          (pairAt (BT.node l x w r)) =
          (x, w) :: ((inorderPos r).map (fun p => true :: p)).filterMap
            (pairAt (BT.node l x w r)) := rfl
      have h4 : ((inorderPos r).map (fun p => true :: p)).filterMap
          (pairAt (BT.node l x w r)) = r.pairs := by
        rw [List.filterMap_map, show (pairAt (BT.node l x w r)) ∘ (fun p => true :: p) =
          pairAt r from funext (fun q => pairAt_node_cons_true l x w r q)]
        exact ihr
      rw [h2, h3, h4]
      rfl

theorem asg2IterPairs_wf {K V : Type} [LinearOrder K] (s : Asg2Tree K V)
    (hw : wfState s) : asg2IterPairs s = s.root.pairs := by
  obtain ⟨hb, hc, hfst, hlst⟩ := hw
  unfold asg2IterPairs
  rw [hfst, posChain_inorder, filterMap_pairAt_inorderPos]

theorem length_pairs {K V : Type} (t : BT K V) : t.pairs.length = t.size := by
  induction t with
  | leaf => rfl
  | node l x w r ihl ihr => simp [BT.pairs, BT.size, ihl, ihr]; omega

theorem zip_all_pair_eq {K V : Type} [LinearOrder K] [DecidableEq V] :
    ∀ (a b : List (K × V)), a.length = b.length →
      ((((a.zip b).all fun q =>
          decide (¬ q.1.1 < q.2.1 ∧ ¬ q.2.1 < q.1.1) && q.1.2 == q.2.2)) = true ↔
        a = b) := by
  intro a
  induction a with
  | nil =>
      intro b h
      cases b with
      | nil => simp
      | cons p2 rest2 => simp at h
  | cons p rest ih =>
      intro b h
      cases b with
      | nil => simp at h
      | cons p2 rest2 =>
          have hlen : rest.length = rest2.length := by simpa using h
          simp only [List.zip_cons_cons, List.all_cons, Bool.and_eq_true,
            decide_eq_true_eq, beq_iff_eq, List.cons.injEq]
          rw [ih rest2 hlen]
          constructor
          · rintro ⟨⟨hkey, hval⟩, hrest⟩
            refine ⟨?_, hrest⟩
            have : p.1 = p2.1 := le_antisymm (not_lt.mp hkey.2) (not_lt.mp hkey.1)
            exact Prod.ext this hval
          · rintro ⟨rfl, hrest⟩
            exact ⟨⟨⟨lt_irrefl _, lt_irrefl _⟩, rfl⟩, hrest⟩

/-- C6 amended: asg1's `operator==` is structural — it holds exactly when
the two trees are identical (same shape and same key/value at every
corresponding node); asg2's `operator==` compares node counts and the
iterator traversals, so on well-formed states it holds exactly when the
node counts and the in-order key/value sequences agree, regardless of
shape. -/
theorem claim_C6_amended_equality :
    (∀ a b : BT Int String, compareTraversal a b = true ↔ a = b) ∧
    (∀ (K V : Type) [LinearOrder K] [DecidableEq V] (s t : Asg2Tree K V),
      wfState s → wfState t →
      (asg2TreeEq s t = true ↔
        (s.node_count = t.node_count ∧ s.root.pairs = t.root.pairs))) := by
  constructor
  · intro a
    induction a with
    | leaf =>
        intro b
        cases b with
        | leaf => simp [compareTraversal]
        | node l2 x2 v2 r2 => simp [compareTraversal]
    | node l1 x1 v1 r1 ihl ihr =>
        intro b
        cases b with
        | leaf => simp [compareTraversal]
        | node l2 x2 v2 r2 =>
            simp only [compareTraversal, Bool.and_eq_true, decide_eq_true_eq,
              ihl l2, ihr r2, BT.node.injEq]
            tauto
  · intro K V _ _ s t hws hwt
    unfold asg2TreeEq
    rw [asg2IterPairs_wf s hws, asg2IterPairs_wf t hwt]
    simp only [Bool.and_eq_true, beq_iff_eq]
    constructor
    · rintro ⟨hcnt, hzip⟩
      have hlen : s.root.pairs.length = t.root.pairs.length := by
        rw [length_pairs, length_pairs, ← hws.2.1, ← hwt.2.1, hcnt]
      exact ⟨hcnt, (zip_all_pair_eq _ _ hlen).mp hzip⟩
    · rintro ⟨hcnt, hpairs⟩
      refine ⟨hcnt, ?_⟩
      have hlen : s.root.pairs.length = t.root.pairs.length := by rw [hpairs]
      exact (zip_all_pair_eq _ _ hlen).mpr hpairs

/-- C6 witness: the amended characterisations applied to concrete trees:
asg1 equality at a tree and itself, and asg2 equality at the two
same-mapping different-shape states of the counterexample. -/
theorem claim_C6_witness :
    compareTraversal exT12 exT12 = true ∧ asg2TreeEq exS12 exS21 = true := by
  constructor
  · exact (claim_C6_amended_equality.1 exT12 exT12).mpr rfl
  · exact (claim_C6_amended_equality.2 Int String exS12 exS21
      ⟨by decide, by decide, by decide, by decide⟩
      ⟨by decide, by decide, by decide, by decide⟩).mpr ⟨by decide, by decide⟩

/-! ## DFS auxiliary lemmas: white counts, adjacency bounds, order facts -/

theorem countWhite_le (g : AdjList) (s : DfsState) :
    countWhite g s ≤ numVerts g := by
  calc countWhite g s ≤ (List.range (numVerts g)).length :=
        List.length_filter_le _ _
    _ = numVerts g := List.length_range _

theorem countWhite_pos (g : AdjList) (s : DfsState) (u : Nat)
    (hu : u < numVerts g) (hw : s.colour u = .White) : 0 < countWhite g s := by
  have hmem : u ∈ (List.range (numVerts g)).filter
      (fun w => s.colour w = .White) := by
    rw [List.mem_filter]
    exact ⟨List.mem_range.mpr hu, by simp [hw]⟩
  exact List.length_pos.mpr (fun hnil => by rw [hnil] at hmem; simp at hmem)

theorem countWhite_paint_grey (g : AdjList) (s : DfsState) (u : Nat) (o : List Nat)
    (hu : u < numVerts g) (hw : s.colour u = .White) :
    countWhite g ⟨fun w => if w = u then .Grey else s.colour w, o⟩ + 1 =
      countWhite g s := by
  unfold countWhite
  have hgen : ∀ L : List Nat, L.Nodup → u ∈ L →
      (L.filter (fun w => decide ((if w = u then Colour.Grey else s.colour w) = .White))).length + 1 =
        (L.filter (fun w => decide (s.colour w = .White))).length := by
    intro L
    induction L with
    | nil => intro _ h; simp at h
    | cons a rest ih =>
        intro hnd hmem
        rw [List.nodup_cons] at hnd
        by_cases hau : a = u
        · subst hau
          have hrest : ∀ w ∈ rest,
              (decide ((if w = a then Colour.Grey else s.colour w) = .White)) =
                (decide (s.colour w = .White)) := by
            intro w hwmem
            have : w ≠ a := fun hh => hnd.1 (hh ▸ hwmem)
            rw [if_neg this]
          rw [List.filter_cons, List.filter_cons]
          simp only [if_pos rfl, hw]
          rw [List.filter_congr hrest]
          simp
        · have hmem2 : u ∈ rest := by
            rcases List.mem_cons.mp hmem with h1 | h1
            · exact absurd h1.symm hau
            · exact h1
          have hconda : (decide ((if a = u then Colour.Grey else s.colour a) = Colour.White)) =
              (decide (s.colour a = Colour.White)) := by rw [if_neg hau]
          rw [List.filter_cons, List.filter_cons, hconda]
          by_cases hcol : (decide (s.colour a = Colour.White)) = true
          · rw [if_pos hcol, if_pos hcol]
            simp only [List.length_cons]
            have := ih hnd.2 hmem2
            omega
          · rw [if_neg hcol, if_neg hcol]
            exact ih hnd.2 hmem2
  exact hgen _ (List.nodup_range _) (List.mem_range.mpr hu)

theorem countWhite_mono (g : AdjList) (s s' : DfsState)
    (h : ∀ w, colourRank (s.colour w) ≤ colourRank (s'.colour w)) :
    countWhite g s' ≤ countWhite g s := by
  unfold countWhite
  rw [← List.countP_eq_length_filter, ← List.countP_eq_length_filter]
  refine List.countP_mono_left ?_
  intro w _ hw
  simp only [decide_eq_true_eq] at *
  have := h w
  rw [hw] at this
  cases hcol : s.colour w with
  | White => rfl
  | Grey => rw [hcol] at this; simp [colourRank] at this
  | Black => rw [hcol] at this; simp [colourRank] at this

theorem le_foldr_max (x : Nat) (L : List Nat) (h : x ∈ L) :
    x ≤ L.foldr max 0 := by
  induction L with
  | nil => simp at h
  | cons a rest ih =>
      rcases List.mem_cons.mp h with rfl | h1
      · exact le_max_left _ _
      · exact le_trans (ih h1) (le_max_right _ _)

theorem length_outAdj_le (g : AdjList) (u : Nat) :
    (outAdj g u).length ≤ maxAdj g := by
  by_cases hu : u < g.vList.length
  · have hget : g.vList.getD u ⟨[]⟩ = g.vList[u] := by
      rw [List.getD_eq_getElem?_getD, List.getElem?_eq_getElem hu]
      rfl
    unfold outAdj maxAdj
    rw [hget, List.length_map]
    exact le_foldr_max _ _ (List.mem_map.mpr ⟨g.vList[u], List.getElem_mem _, rfl⟩)
  · have hget : g.vList.getD u ⟨[]⟩ = ⟨[]⟩ := by
      rw [List.getD_eq_getElem?_getD, List.getElem?_eq_none (by omega)]
      rfl
    unfold outAdj
    rw [hget]
    simp

theorem colourRank_le_two (c : Colour) : colourRank c ≤ 2 := by
  cases c <;> simp [colourRank]

theorem dfsStep_rfl (g : AdjList) (s : DfsState) (h : DfsInv g s) :
    DfsStep g s s :=
  ⟨h, fun _ => le_refl _, fun _ => Iff.rfl, ⟨[], by simp⟩, le_refl _⟩

theorem dfsStep_trans {g : AdjList} {s1 s2 s3 : DfsState}
    (h12 : DfsStep g s1 s2) (h23 : DfsStep g s2 s3) : DfsStep g s1 s3 := by
  obtain ⟨hi2, hm12, hg12, ⟨t1, ht1⟩, hc12⟩ := h12
  obtain ⟨hi3, hm23, hg23, ⟨t2, ht2⟩, hc23⟩ := h23
  refine ⟨hi3, fun w => le_trans (hm12 w) (hm23 w),
    fun w => (hg23 w).trans (hg12 w), ⟨t1 ++ t2, ?_⟩, le_trans hc23 hc12⟩
  rw [ht2, ht1, List.append_assoc]

theorem colour_of_rank_two {c : Colour} (h : 2 ≤ colourRank c) : c = .Black := by
  cases c <;> simp [colourRank] at h ⊢

/-- The combined specification of `dfsVisit` and its edge loop, by
induction on the fuel: starting from a white vertex (or from the out-edge
list of a grey vertex), as long as the fuel covers the white count, the
traversal preserves the invariant, only raises colours, keeps the grey
set, appends to the output, and ends with the visited vertex (or every
listed target) black.  Acyclicity discharges the grey-target case. -/
theorem dfs_main (g : AdjList) (hwf : WfAdj g) (hac : AcyclicG g) :
    ∀ fuel : Nat,
      (∀ u s, u < numVerts g → s.colour u = .White →
        countWhite g s * (maxAdj g + 2) ≤ fuel →
        DfsInv g s →
        (∀ w, s.colour w = .Grey → Relation.ReflTransGen (EdgeRel g) w u) →
        DfsStep g s (dfsVisit g fuel u s) ∧
          (dfsVisit g fuel u s).colour u = .Black) ∧
      (∀ l u s, (∀ v ∈ l, EdgeRel g u v) → u < numVerts g →
        s.colour u = .Grey →
        l.length + countWhite g s * (maxAdj g + 2) ≤ fuel →
        DfsInv g s →
        (∀ w, s.colour w = .Grey → Relation.ReflTransGen (EdgeRel g) w u) →
        DfsStep g s (dfsList g fuel l s) ∧
          (∀ v ∈ l, (dfsList g fuel l s).colour v = .Black)) := by
  intro fuel
  induction fuel with
  | zero =>
      constructor
      · intro u s hu hwhite hfuel hinv hgrey
        exfalso
        have h1 : 1 ≤ countWhite g s := countWhite_pos g s u hu hwhite
        have h2 : 1 * 1 ≤ countWhite g s * (maxAdj g + 2) :=
          Nat.mul_le_mul h1 (by omega)
        omega
      · intro l u s hedges hu hugrey hfuel hinv hgreyInv
        have hl : l = [] := List.length_eq_zero.mp (by omega)
        subst hl
        exact ⟨dfsStep_rfl g s hinv, by simp⟩
  | succ fuel ih =>
      obtain ⟨ihv, ihl⟩ := ih
      constructor
      · -- dfsVisit at fuel + 1
        intro u s hu hwhite hfuel hinv hgrey
        set s1 : DfsState := ⟨fun w => if w = u then .Grey else s.colour w, s.out⟩
          with hs1
        have hcw1 : countWhite g s1 + 1 = countWhite g s := by
          rw [hs1]
          exact countWhite_paint_grey g s u s.out hu hwhite
        obtain ⟨hnd, hrange, hblack, houtside, hedgeInv⟩ := hinv
        have hs1colour : ∀ w, s1.colour w = if w = u then .Grey else s.colour w := by
          intro w; rw [hs1]
        have hs1out : s1.out = s.out := by rw [hs1]
        have hunotout : u ∉ s.out := by
          intro hmem
          have := (hblack u).mpr hmem
          rw [hwhite] at this
          exact Colour.noConfusion this
        have hinv1 : DfsInv g s1 := by
          refine ⟨hs1out ▸ hnd, hs1out ▸ hrange, ?_, ?_, hs1out ▸ hedgeInv⟩
          · intro w
            rw [hs1colour w, hs1out]
            by_cases hwu : w = u
            · subst hwu
              rw [if_pos rfl]
              constructor
              · intro hB; exact Colour.noConfusion hB
              · intro hmem; exact absurd hmem hunotout
            · rw [if_neg hwu]; exact hblack w
          · intro w hw
            have hwu : w ≠ u := fun hh => hw (by rw [hh]; exact hu)
            rw [hs1colour w, if_neg hwu]
            exact houtside w hw
        have hgrey1 : ∀ w, s1.colour w = .Grey →
            Relation.ReflTransGen (EdgeRel g) w u := by
          intro w hwg
          rw [hs1colour w] at hwg
          by_cases hwu : w = u
          · subst hwu; exact Relation.ReflTransGen.refl
          · rw [if_neg hwu] at hwg; exact hgrey w hwg
        have hedgesu : ∀ v ∈ outAdj g u, EdgeRel g u v := fun v hv => ⟨hu, hv⟩
        have hs1u : s1.colour u = .Grey := by rw [hs1colour u, if_pos rfl]
        have hfuel1 : (outAdj g u).length + countWhite g s1 * (maxAdj g + 2) ≤ fuel := by
          have hA := length_outAdj_le g u
          have hmul : countWhite g s * (maxAdj g + 2) =
              countWhite g s1 * (maxAdj g + 2) + (maxAdj g + 2) := by
            rw [← hcw1]; ring
          omega
        obtain ⟨hstep2, hallb⟩ := ihl (outAdj g u) u s1 hedgesu hu hs1u hfuel1 hinv1 hgrey1
        set s2 := dfsList g fuel (outAdj g u) s1 with hs2
        obtain ⟨hinv2, hmono2, hgrey2, ⟨tail2, htail2⟩, hcwle2⟩ := hstep2
        obtain ⟨hnd2, hrange2, hblack2, houtside2, hedgeInv2⟩ := hinv2
        have hs2u : s2.colour u = .Grey := (hgrey2 u).mpr hs1u
        have hunotout2 : u ∉ s2.out := by
          intro hmem
          have := (hblack2 u).mpr hmem
          rw [hs2u] at this
          exact Colour.noConfusion this
        have hunfold : dfsVisit g (fuel + 1) u s =
            ⟨fun w => if w = u then .Black else s2.colour w, s2.out ++ [u]⟩ := by
          rw [hs2, hs1]
          rfl
        set s3 : DfsState := ⟨fun w => if w = u then .Black else s2.colour w,
          s2.out ++ [u]⟩ with hs3
        rw [hunfold]
        have hs3colour : ∀ w, s3.colour w = if w = u then .Black else s2.colour w := by
          intro w; rw [hs3]
        have hs3out : s3.out = s2.out ++ [u] := by rw [hs3]
        have hmono13 : ∀ w, colourRank (s.colour w) ≤ colourRank (s3.colour w) := by
          intro w
          rw [hs3colour w]
          by_cases hwu : w = u
          · subst hwu
            rw [if_pos rfl, hwhite]
            simp [colourRank]
          · rw [if_neg hwu]
            refine le_trans ?_ (hmono2 w)
            rw [hs1colour w, if_neg hwu]
        have hinv3 : DfsInv g s3 := by
          refine ⟨?_, ?_, ?_, ?_, ?_⟩
          · rw [hs3out, List.nodup_append]
            exact ⟨hnd2, List.nodup_singleton u,
              fun a ha hb => hunotout2 ((List.mem_singleton.mp hb) ▸ ha)⟩
          · intro w hw
            rw [hs3out] at hw
            rcases List.mem_append.mp hw with hw | hw
            · exact hrange2 w hw
            · rw [List.mem_singleton.mp hw]; exact hu
          · intro w
            rw [hs3colour w, hs3out]
            by_cases hwu : w = u
            · subst hwu
              rw [if_pos rfl]
              simp
            · rw [if_neg hwu, List.mem_append, List.mem_singleton]
              constructor
              · intro hB; exact Or.inl ((hblack2 w).mp hB)
              · intro hmem
                rcases hmem with hmem | hmem
                · exact (hblack2 w).mpr hmem
                · exact absurd hmem hwu
          · intro w hw
            have hwu : w ≠ u := fun hh => hw (by rw [hh]; exact hu)
            rw [hs3colour w, if_neg hwu]
            exact houtside2 w hw
          · intro a b hab hamem
            rw [hs3out] at hamem ⊢
            rcases List.mem_append.mp hamem with hmem | hmem
            · obtain ⟨hbmem, hidx⟩ := hedgeInv2 a b hab hmem
              refine ⟨List.mem_append.mpr (Or.inl hbmem), ?_⟩
              rw [List.indexOf_append_of_mem hbmem, List.indexOf_append_of_mem hmem]
              exact hidx
            · have hau : a = u := List.mem_singleton.mp hmem
              subst hau
              have hbblack : s2.colour b = .Black := hallb b hab.2
              have hbmem : b ∈ s2.out := (hblack2 b).mp hbblack
              refine ⟨List.mem_append.mpr (Or.inl hbmem), ?_⟩
              rw [List.indexOf_append_of_mem hbmem,
                List.indexOf_append_of_not_mem hunotout2]
              have hlt : List.indexOf b s2.out < s2.out.length :=
                List.indexOf_lt_length.mpr hbmem
              omega
        have hgrey3 : ∀ w, s3.colour w = .Grey ↔ s.colour w = .Grey := by
          intro w
          rw [hs3colour w]
          by_cases hwu : w = u
          · subst hwu
            rw [if_pos rfl, hwhite]
            constructor
            · intro hh; exact Colour.noConfusion hh
            · intro hh; exact Colour.noConfusion hh
          · rw [if_neg hwu]
            refine (hgrey2 w).trans ?_
            rw [hs1colour w, if_neg hwu]
        refine ⟨⟨hinv3, hmono13, hgrey3, ⟨tail2 ++ [u], ?_⟩,
          countWhite_mono g s s3 hmono13⟩, ?_⟩
        · rw [hs3out, htail2, hs1out, List.append_assoc]
        · rw [hs3colour u, if_pos rfl]
      · -- dfsList at fuel + 1
        intro l u s hedges hu hugrey hfuel hinv hgreyInv
        cases l with
        | nil => exact ⟨dfsStep_rfl g s hinv, by simp⟩
        | cons v rest =>
            simp only [List.length_cons] at hfuel
            have hev : EdgeRel g u v := hedges v (List.mem_cons_self v rest)
            have hvn : v < numVerts g := hwf u hu v hev.2
            have hedges' : ∀ w ∈ rest, EdgeRel g u w :=
              fun w hw => hedges w (List.mem_cons_of_mem v hw)
            have hred : dfsList g (fuel + 1) (v :: rest) s =
                dfsList g fuel rest
                  (if s.colour v = .White then dfsVisit g fuel v s else s) := rfl
            by_cases hv : s.colour v = .White
            · rw [hred, if_pos hv]
              have hgreyv : ∀ w, s.colour w = .Grey →
                  Relation.ReflTransGen (EdgeRel g) w v := by
                intro w hw
                exact Relation.ReflTransGen.tail (hgreyInv w hw) hev
              have hfuelv : countWhite g s * (maxAdj g + 2) ≤ fuel := by omega
              obtain ⟨hstep1, hvb⟩ := ihv v s hvn hv hfuelv hinv hgreyv
              set s' := dfsVisit g fuel v s with hsp
              obtain ⟨hinv', hmono', hgrey', ⟨t1, ht1⟩, hcw'⟩ := hstep1
              have hugrey' : s'.colour u = .Grey := (hgrey' u).mpr hugrey
              have hgreyInv' : ∀ w, s'.colour w = .Grey →
                  Relation.ReflTransGen (EdgeRel g) w u :=
                fun w hw => hgreyInv w ((hgrey' w).mp hw)
              have hfuel' : rest.length + countWhite g s' * (maxAdj g + 2) ≤ fuel := by
                have := Nat.mul_le_mul_right (maxAdj g + 2) hcw'
                omega
              obtain ⟨hstep2, hall2⟩ :=
                ihl rest u s' hedges' hu hugrey' hfuel' hinv' hgreyInv'
              refine ⟨dfsStep_trans
                ⟨hinv', hmono', hgrey', ⟨t1, ht1⟩, hcw'⟩ hstep2, ?_⟩
              intro w hw
              rcases List.mem_cons.mp hw with hwv | hwrest
              · subst hwv
                obtain ⟨_, hmono2, _, _, _⟩ := hstep2
                have hr := hmono2 w
                rw [hvb] at hr
                exact colour_of_rank_two (by simpa [colourRank] using hr)
              · exact hall2 w hwrest
            · rw [hred, if_neg hv]
              have hfuel' : rest.length + countWhite g s * (maxAdj g + 2) ≤ fuel := by
                omega
              obtain ⟨hstep2, hall2⟩ :=
                ihl rest u s hedges' hu hugrey hfuel' hinv hgreyInv
              refine ⟨hstep2, ?_⟩
              intro w hw
              rcases List.mem_cons.mp hw with hwv | hwrest
              · subst hwv
                cases hcv : s.colour w with
                | White => exact absurd hcv hv
                | Grey => exact absurd (hgreyInv w hcv) (hac u w hev)
                | Black =>
                    obtain ⟨_, hmono2, _, _, _⟩ := hstep2
                    have hr := hmono2 w
                    rw [hcv] at hr
                    exact colour_of_rank_two (by simpa [colourRank] using hr)
              · exact hall2 w hwrest

theorem dfsFold_spec (g : AdjList) (hwf : WfAdj g) (hac : AcyclicG g) :
    ∀ L : List Nat, ∀ s : DfsState, (∀ u ∈ L, u < numVerts g) →
      DfsInv g s → (∀ w, s.colour w ≠ .Grey) →
      DfsInv g (dfsFold g L s) ∧
      (∀ w, (dfsFold g L s).colour w ≠ .Grey) ∧
      (∀ w, colourRank (s.colour w) ≤ colourRank ((dfsFold g L s).colour w)) ∧
      (∀ u ∈ L, (dfsFold g L s).colour u = .Black) := by
  intro L
  induction L with
  | nil =>
      intro s hL hinv hng
      exact ⟨hinv, hng, fun w => le_refl _,
        fun u hu => absurd hu (List.not_mem_nil u)⟩
  | cons u rest ih =>
      intro s hL hinv hng
      have hun : u < numVerts g := hL u (List.mem_cons_self u rest)
      have hrest : ∀ v ∈ rest, v < numVerts g :=
        fun v hv => hL v (List.mem_cons_of_mem u hv)
      have hred : dfsFold g (u :: rest) s =
          dfsFold g rest
            (if s.colour u = .White then dfsVisit g (dfsFuelFor g) u s else s) := rfl
      by_cases hw : s.colour u = .White
      · rw [hred, if_pos hw]
        have hfuel : countWhite g s * (maxAdj g + 2) ≤ dfsFuelFor g := by
          unfold dfsFuelFor
          calc countWhite g s * (maxAdj g + 2)
              ≤ numVerts g * (maxAdj g + 2) :=
                Nat.mul_le_mul_right _ (countWhite_le g s)
            _ = (maxAdj g + 2) * numVerts g := Nat.mul_comm _ _
            _ ≤ (maxAdj g + 2) * (numVerts g + 1) :=
                Nat.mul_le_mul_left _ (Nat.le_succ _)
        have hgreyInv : ∀ w, s.colour w = .Grey →
            Relation.ReflTransGen (EdgeRel g) w u :=
          fun w hwg => absurd hwg (hng w)
        obtain ⟨⟨hinv1, hmono1, hgrey1, _, _⟩, hub⟩ :=
          (dfs_main g hwf hac (dfsFuelFor g)).1 u s hun hw hfuel hinv hgreyInv
        set s1 := dfsVisit g (dfsFuelFor g) u s with hs1
        have hng1 : ∀ w, s1.colour w ≠ .Grey :=
          fun w hwg => hng w ((hgrey1 w).mp hwg)
        obtain ⟨hinv2, hng2, hmono2, hblack2⟩ := ih s1 hrest hinv1 hng1
        refine ⟨hinv2, hng2, fun w => le_trans (hmono1 w) (hmono2 w), ?_⟩
        intro v hv
        rcases List.mem_cons.mp hv with hvu | hvr
        · subst hvu
          have hr := hmono2 v
          rw [hub] at hr
          exact colour_of_rank_two (by simpa [colourRank] using hr)
        · exact hblack2 v hvr
      · rw [hred, if_neg hw]
        obtain ⟨hinv2, hng2, hmono2, hblack2⟩ := ih s hrest hinv hng
        refine ⟨hinv2, hng2, hmono2, ?_⟩
        intro v hv
        rcases List.mem_cons.mp hv with hvu | hvr
        · subst hvu
          cases hcv : s.colour v with
          | White => exact absurd hcv hw
          | Grey => exact absurd hcv (hng v)
          | Black =>
              have hr := hmono2 v
              rw [hcv] at hr
              exact colour_of_rank_two (by simpa [colourRank] using hr)
        · exact hblack2 v hvr

/-- C3: on a well-formed acyclic graph, `topoSort` writes out the DFS
finish order, it contains every vertex exactly once, and its reverse is a
valid topological order: for every edge `(a, b)` the vertex `a` appears
strictly before `b` in the reversed sequence. -/
theorem claim_C3_toposort (g : AdjList) (hwf : WfAdj g) (hac : AcyclicG g) :
    (∀ w, w ∈ topoSortOut g ↔ w < numVerts g) ∧
    (topoSortOut g).Nodup ∧
    (∀ a b, EdgeRel g a b → ∃ i j : Nat, i < j ∧
      (topoSortOut g).reverse[i]? = some a ∧
      (topoSortOut g).reverse[j]? = some b) := by
  have hrw : topoSortOut g =
      (dfsFold g (List.range (numVerts g)) ⟨fun _ => .White, []⟩).out := rfl
  rw [hrw]
  have hinit : DfsInv g (⟨fun _ => .White, []⟩ : DfsState) := by
    refine ⟨List.nodup_nil, by simp, ?_, fun _ _ => rfl, by simp⟩
    intro w
    constructor
    · intro h; exact Colour.noConfusion h
    · intro h; simp at h
  have hng : ∀ w, (⟨fun _ => .White, []⟩ : DfsState).colour w ≠ .Grey :=
    fun w h => Colour.noConfusion h
  obtain ⟨hinv, _, _, hblackAll⟩ :=
    dfsFold_spec g hwf hac (List.range (numVerts g)) ⟨fun _ => .White, []⟩
      (fun u hu => List.mem_range.mp hu) hinit hng
  obtain ⟨hnd, hrange, hblackIff, _, hedgeInv⟩ := hinv
  set L := (dfsFold g (List.range (numVerts g)) ⟨fun _ => .White, []⟩).out with hL
  refine ⟨?_, hnd, ?_⟩
  · intro w
    constructor
    · intro hw; exact hrange w hw
    · intro hw
      exact (hblackIff w).mp (hblackAll w (List.mem_range.mpr hw))
  · intro a b hab
    have hamem : a ∈ L :=
      (hblackIff a).mp (hblackAll a (List.mem_range.mpr hab.1))
    obtain ⟨hbmem, hidx⟩ := hedgeInv a b hab hamem
    have hia : L.indexOf a < L.length := List.indexOf_lt_length.mpr hamem
    have hib : L.indexOf b < L.length := List.indexOf_lt_length.mpr hbmem
    refine ⟨L.length - 1 - L.indexOf a, L.length - 1 - L.indexOf b,
      by omega, ?_, ?_⟩
    · rw [List.getElem?_reverse (by omega)]
      have heq : L.length - 1 - (L.length - 1 - L.indexOf a) = L.indexOf a := by
        omega
      rw [heq, List.getElem?_eq_getElem hia, List.getElem_indexOf hia]
    · rw [List.getElem?_reverse (by omega)]
      have heq : L.length - 1 - (L.length - 1 - L.indexOf b) = L.indexOf b := by
        omega
      rw [heq, List.getElem?_eq_getElem hib, List.getElem_indexOf hib]

/-- Witness for C3 on the concrete two-vertex graph with the single edge
`0 → 1`: the reversed finish order places `0` before `1`. -/
theorem claim_C3_witness :
    ∃ i j : Nat, i < j ∧ (topoSortOut exG2).reverse[i]? = some 0 ∧
      (topoSortOut exG2).reverse[j]? = some 1 := by
  have hwf : WfAdj exG2 := by
    intro u hu v hv
    have hu2 : u < 2 := by simpa [numVerts, exG2] using hu
    interval_cases u
    · have hv1 : v = 1 := by simpa [outAdj, exG2] using hv
      subst hv1
      decide
    · exact absurd hv (by simp [outAdj, exG2])
  have hac : AcyclicG exG2 := by
    intro u v huv hpath
    obtain ⟨hu, hv⟩ := huv
    have hu2 : u < 2 := by simpa [numVerts, exG2] using hu
    interval_cases u
    · have hv1 : v = 1 := by simpa [outAdj, exG2] using hv
      subst hv1
      rcases Relation.ReflTransGen.cases_head hpath with h | ⟨c, hc, _⟩
      · exact absurd h (by decide)
      · exact absurd hc.2 (by simp [outAdj, exG2])
    · exact absurd hv (by simp [outAdj, exG2])
  exact (claim_C3_toposort exG2 hwf hac).2.2 0 1 ⟨by decide, by decide⟩
